import Mathlib

/-!
# Verification of the librun/sav SPSS system-file writer

Shallow embedding of `sav.go` (package `sav`) and the companion files of the
repository. Go strings are modelled as Lean strings; all byte strings handled
by the writer are lists of naturals below 256. Every name added through
`AddVar` is first cleaned to the ASCII class `[A-Za-z0-9#$_.@]`, where Go's
byte length coincides with the character count used here.

Go `int32`/`int` arithmetic is modelled on `Int` with `Int.tdiv`/`Int.tmod`
(Go division truncates toward zero). IEEE-754 values are modelled exactly as
unnormalised rationals (`Q` below) together with explicit round-to-nearest-even
functions; this keeps every definition kernel-computable.

The `BytecodeWriter` type is referenced by `sav.go` but its source file is not
part of the repository snapshot; it is modelled from the specification, §4.2
(see `bcAdd`, `bcWriteNumber`, `bcWriteMissing`, `bcWriteChunks`, `bcFlush`).
The Go standard-library functions used by the source (`strconv.ParseFloat`,
`strconv.Itoa`, `time.Parse`) are likewise modelled from their documented
behaviour on the inputs the writer feeds them.
-/

set_option maxRecDepth 20000

namespace Sav

/-- `2 ^ n` on naturals (kept as a function so large powers stay out of
literal-exponent elaboration). -/
def pow2 (n : Nat) : Nat := 2 ^ n

/-- Fuel-driven binary logarithm: `nlog2go f n` halves `n` until it drops
below 2, consuming fuel, so that the kernel can evaluate it. -/
def nlog2go : Nat → Nat → Nat
  | 0, _ => 0
  | f + 1, n => if 2 ≤ n then nlog2go f (n / 2) + 1 else 0

/-- `⌊log₂ n⌋` for `n ≥ 1` (0 at 0). -/
def nlog2 (n : Nat) : Nat := nlog2go n n

/-- Unnormalised rational numbers with a positive denominator by construction;
used to model IEEE-754 doubles exactly while staying kernel-computable
(`Mathlib`'s `Rat` normalises through `Nat.gcd`, which does not reduce in the
kernel). -/
structure Q where
  num : Int
  den : Nat
  deriving DecidableEq

instance : Inhabited Q := ⟨⟨0, 1⟩⟩

def Q.ofInt (i : Int) : Q := ⟨i, 1⟩

def Q.neg (a : Q) : Q := ⟨-a.num, a.den⟩

def Q.qabs (a : Q) : Q := ⟨(a.num.natAbs : Int), a.den⟩

def Q.add (a b : Q) : Q := ⟨a.num * b.den + b.num * a.den, a.den * b.den⟩

def Q.sub (a b : Q) : Q := ⟨a.num * b.den - b.num * a.den, a.den * b.den⟩

/-- `a ≤ b` by cross multiplication (valid: denominators are positive). -/
def qle (a b : Q) : Bool := decide (a.num * (b.den : Int) ≤ b.num * (a.den : Int))

/-- `a < b` by cross multiplication. -/
def qlt (a b : Q) : Bool := decide (a.num * (b.den : Int) < b.num * (a.den : Int))

/-- Value equality of unnormalised rationals. -/
def qeqb (a b : Q) : Bool := decide (a.num * (b.den : Int) = b.num * (a.den : Int))

/-- Multiply by `2 ^ e` for an integer exponent. -/
def Q.mul2 (a : Q) (e : Int) : Q :=
  if 0 ≤ e then ⟨a.num * (pow2 e.toNat : Nat), a.den⟩ else ⟨a.num, a.den * pow2 (-e).toNat⟩

/-- `2 ^ e` as a `Q` for an integer exponent. -/
def q2pow (e : Int) : Q :=
  if 0 ≤ e then ⟨((pow2 e.toNat : Nat) : Int), 1⟩ else ⟨1, pow2 (-e).toNat⟩

/-- Floor of a `Q` (denominator is positive in every value we build). -/
def qfloor (a : Q) : Int := Int.fdiv a.num a.den

/-- Round to the nearest integer, ties to even. -/
def roundHalfEven (x : Q) : Int :=
  let n := qfloor x
  let fr := Q.sub x (Q.ofInt n)
  if qlt fr ⟨1, 2⟩ then n
  else if qlt ⟨1, 2⟩ fr then n + 1
  else if n % 2 = 0 then n else n + 1

/-- For `a > 0`, the exponent `e` with `2 ^ e ≤ a < 2 ^ (e+1)`: a first guess
from the bit lengths of numerator and denominator, corrected by comparison. -/
def qexp (a : Q) : Int :=
  let e0 : Int := (nlog2 a.num.natAbs : Int) - (nlog2 a.den : Int)
  if qle (q2pow (e0 + 2)) a then e0 + 2
  else if qle (q2pow (e0 + 1)) a then e0 + 1
  else if qle (q2pow e0) a then e0
  else if qle (q2pow (e0 - 1)) a then e0 - 1
  else e0 - 2

/-- Round a rational to the nearest IEEE-754 binary float with `prec`
mantissa bits and minimal (normal) exponent `emin`, ties to even; subnormals
use the `emin` grid. Models the value produced by Go's float parsing and
arithmetic (overflow is handled at the call sites). -/
def roundFP (prec : Nat) (emin : Int) (q : Q) : Q :=
  if q.num = 0 then ⟨0, 1⟩
  else
    let a := q.qabs
    let e := max (qexp a) emin
    let g : Int := e - ((prec - 1 : Nat) : Int)
    let m := roundHalfEven (a.mul2 (-g))
    let r := (Q.ofInt m).mul2 g
    if q.num < 0 then r.neg else r

/-- Round to `float32` precision (24 mantissa bits, normal exponents ≥ −126). -/
def roundF32 : Q → Q := roundFP 24 (-126)

/-- Round to `float64` precision (53 mantissa bits, normal exponents ≥ −1022). -/
def roundF64 : Q → Q := roundFP 53 (-1022)

/-- The IEEE-754 binary64 bit pattern of a value that is exactly representable
as a `float64` (which is the case for every value the writer encodes: they all
come out of `roundF64`/integer arithmetic in the double range). -/
def f64bits (q : Q) : Nat :=
  if q.num = 0 then 0
  else
    let sgn : Nat := if q.num < 0 then pow2 63 else 0
    let a := q.qabs
    let e := max (qexp a) (-1022)
    let m := (roundHalfEven (a.mul2 ((52 : Int) - e))).toNat
    if pow2 52 ≤ m then sgn + (e + 1023).toNat * pow2 52 + (m - pow2 52) else sgn + m

/-- The eight little-endian bytes Go's `binary.Write` produces for a
`float64`. -/
def f64le (q : Q) : List Nat :=
  (List.range 8).map fun i => f64bits q / pow2 (8 * i) % 256

/-- `math.MaxFloat64`, exactly. -/
def maxFloat64 : Q := ⟨((pow2 1024 - pow2 971 : Nat) : Int), 1⟩

/-! ## Decimal parsing and printing (models of `strconv`) -/

def isDigitN (c : Char) : Bool := 48 ≤ c.toNat ∧ c.toNat ≤ 57

def digitsToNat (cs : List Char) : Nat := cs.foldl (fun a c => a * 10 + (c.toNat - 48)) 0

/-- Split a character list at the first character satisfying `p`; the second
component is `none` when no such character occurs. -/
def splitAtChar (p : Char → Bool) : List Char → List Char × Option (List Char)
  | [] => ([], none)
  | c :: cs =>
    if p c then ([], some cs)
    else
      let r := splitAtChar p cs
      (c :: r.1, r.2)

/-- The exact rational value of a decimal floating-point literal, in the forms
`[+-]?digits[.digits][eE[+-]digits]` that the writer feeds to
`strconv.ParseFloat`; `none` on a syntax error. Modelled from the Go standard
library's documented behaviour. -/
def parseDecimal (s : String) : Option Q :=
  let cs := s.data
  let sgn := match cs with
    | '+' :: t => (false, t)
    | '-' :: t => (true, t)
    | _ => (false, cs)
  let neg := sgn.1
  let mantExp := splitAtChar (fun c => c = 'e' ∨ c = 'E') sgn.2
  let ipFp := splitAtChar (· = '.') mantExp.1
  let ip := ipFp.1
  let fp := (ipFp.2).getD []
  if ip.all isDigitN ∧ fp.all isDigitN ∧ (ip ≠ [] ∨ fp ≠ []) then
    let base : Q := ⟨((digitsToNat ip * 10 ^ fp.length + digitsToNat fp : Nat) : Int),
                     10 ^ fp.length⟩
    let signed := if neg then base.neg else base
    match mantExp.2 with
    | none => some signed
    | some ecs =>
      let esgn := match ecs with
        | '+' :: t => (false, t)
        | '-' :: t => (true, t)
        | _ => (false, ecs)
      if esgn.2 ≠ [] ∧ esgn.2.all isDigitN then
        let e := digitsToNat esgn.2
        some (if esgn.1 then ⟨signed.num, signed.den * 10 ^ e⟩
              else ⟨signed.num * ((10 ^ e : Nat) : Int), signed.den⟩)
      else none
  else none

/-- Go `strconv.ParseFloat(s, 32)` as used by `atof`: the decimal value
rounded to `float32` precision; `none` when `s` does not parse or the value
overflows the `float32` range (Go reports `ErrRange` then). -/
def parseFloat32 (s : String) : Option Q :=
  match parseDecimal s with
  | none => none
  | some q =>
    let r := roundF32 q
    if qle (q2pow 128) r.qabs then none else some r

/-- Go `strconv.ParseFloat(s, 64)`: the decimal value rounded to `float64`
precision; `none` on syntax error or overflow. -/
def parseFloat64 (s : String) : Option Q :=
  match parseDecimal s with
  | none => none
  | some q =>
    let r := roundF64 q
    if qle (q2pow 1024) r.qabs then none else some r

def digitChar (d : Nat) : Char := Char.ofNat (48 + d)

/-- Fuelled decimal printer; fuel `n + 1` always suffices for `n`. -/
def itoaGo : Nat → Nat → String
  | 0, _ => ""
  | f + 1, n =>
    if n < 10 then String.mk [digitChar n]
    else itoaGo f (n / 10) ++ String.mk [digitChar (n % 10)]

/-- Go `strconv.Itoa` on the non-negative values the writer prints. -/
def itoa (n : Nat) : String := itoaGo (n + 1) n

/-! ## Date parsing (model of `time.Parse` for the two fixed layouts) -/

/-- Split on a separator character, as Go's `strings.Split`. -/
def splitChar (sep : Char) : List Char → List (List Char)
  | [] => [[]]
  | c :: cs =>
    if c = sep then [] :: splitChar sep cs
    else
      match splitChar sep cs with
      | g :: gs => (c :: g) :: gs
      | [] => [[c]]

def parseNatDigits (cs : List Char) : Option Nat :=
  if cs ≠ [] ∧ cs.all isDigitN then some (digitsToNat cs) else none

def goMonths : List String :=
  ["Jan", "Feb", "Mar", "Apr", "May", "Jun", "Jul", "Aug", "Sep", "Oct", "Nov", "Dec"]

def monthNum (s : String) : Option Nat := (goMonths.findIdx? (· = s)).map (· + 1)

def isLeapYear (y : Int) : Bool := y % 4 = 0 ∧ (y % 100 ≠ 0 ∨ y % 400 = 0)

def daysInMonth (y : Int) (m : Nat) : Nat :=
  match m with
  | 1 => 31 | 2 => if isLeapYear y then 29 else 28 | 3 => 31 | 4 => 30
  | 5 => 31 | 6 => 30 | 7 => 31 | 8 => 31 | 9 => 30 | 10 => 31 | 11 => 30 | _ => 31

/-- Days between a proleptic-Gregorian civil date and 1970-01-01. -/
def daysFromCivil (y : Int) (m d : Nat) : Int :=
  let y2 := if m ≤ 2 then y - 1 else y
  let era := Int.fdiv y2 400
  let yoe := y2 - era * 400
  let mp : Int := (m : Int) + (if 2 < m then -3 else 9)
  let doy := Int.fdiv (153 * mp + 2) 5 + (d : Int) - 1
  let doe := yoe * 365 + Int.fdiv yoe 4 - Int.fdiv yoe 100 + doy
  era * 146097 + doe - 719468

/-- Modelled from the spec: Go `time.Parse("2-Jan-2006", s).Unix()` (the
`time` package is not part of the repository); `none` when `s` does not match
the layout. Returns seconds since the Unix epoch, UTC. -/
def parseGoDate (s : String) : Option Int :=
  match splitChar '-' s.data with
  | [dcs, mcs, ycs] =>
    match parseNatDigits dcs, monthNum (String.mk mcs), parseNatDigits ycs with
    | some d, some m, some y =>
      if 1 ≤ dcs.length ∧ dcs.length ≤ 2 ∧ ycs.length = 4 ∧
          1 ≤ d ∧ d ≤ daysInMonth (y : Int) m then
        some (86400 * daysFromCivil (y : Int) m d)
      else none
    | _, _, _ => none
  | _ => none

/-- Modelled from the spec: Go `time.Parse("2-Jan-2006 15:04:05", s).Unix()`. -/
def parseGoDateTime (s : String) : Option Int :=
  match splitChar ' ' s.data with
  | [dpart, tpart] =>
    match parseGoDate (String.mk dpart), splitChar ':' tpart with
    | some base, [hcs, mcs, scs] =>
      match parseNatDigits hcs, parseNatDigits mcs, parseNatDigits scs with
      | some h, some mi, some sec =>
        if hcs.length = 2 ∧ mcs.length = 2 ∧ scs.length = 2 ∧
            h ≤ 23 ∧ mi ≤ 59 ∧ sec ≤ 59 then
          some (base + 3600 * (h : Int) + 60 * (mi : Int) + (sec : Int))
        else none
      | _, _, _ => none
    | _, _ => none
  | _ => none

/-! ## Constants and byte-string helpers from `sav.go` -/

def maxStringLength : Int := 1024 * 50

def maxPrintStringWidth : Int := 40

def TimeOffset : Int := 12219379200

def SPSS_NUMERIC : Int := 0

def SPSS_FMT_A : Nat := 1

def SPSS_FMT_F : Nat := 5

def SPSS_FMT_DATE : Nat := 20

def SPSS_FMT_DATE_TIME : Nat := 22

/-- Byte view of a (ASCII) Go string. -/
def strBytes (s : String) : List Nat := s.data.map Char.toNat

/-- Little-endian four bytes of a Go `int32` (two's-complement wrap). -/
def i32le (i : Int) : List Nat :=
  let n := (i % ((pow2 32 : Nat) : Int)).toNat
  [n % 256, n / 256 % 256, n / 65536 % 256, n / 16777216 % 256]

/-- `stob`: truncate or space-pad a byte string to length `l`. -/
def stobB (s : List Nat) (l : Nat) : List Nat :=
  if l < s.length then s.take l else s ++ List.replicate (l - s.length) 32

/-- `stob` applied to a Go string. -/
def stob (s : String) (l : Nat) : List Nat := stobB (strBytes s) l

/-- `stobp`: truncate or pad a byte string to length `l` with the pad byte
appended on the right. -/
def stobpB (s : List Nat) (l : Nat) (pad : Nat) : List Nat :=
  if l < s.length then s.take l else s ++ List.replicate (l - s.length) pad

/-- `trim`: keep the first `l` bytes. -/
def trim (s : String) (l : Nat) : String :=
  if l < s.data.length then String.mk (s.data.take l) else s

/-- `elementCount`: number of 8-byte elements covering `width` characters
(Go `((width-1)/8)+1`, division truncating toward zero). -/
def elementCount (width : Int) : Int := Int.tdiv (width - 1) 8 + 1

/-! ## `ConvertIntToColumnName` and `getAlpabetByInt` -/

/-- The 36-way switch of `getAlpabetByInt`: letters for 10–35, `strconv.Itoa`
otherwise. -/
def getAlpabetByInt (s : Nat) : String :=
  match s with
  | 10 => "a" | 11 => "b" | 12 => "c" | 13 => "d" | 14 => "e" | 15 => "f"
  | 16 => "g" | 17 => "h" | 18 => "i" | 19 => "j" | 20 => "k" | 21 => "l"
  | 22 => "m" | 23 => "n" | 24 => "o" | 25 => "p" | 26 => "q" | 27 => "r"
  | 28 => "s" | 29 => "t" | 30 => "u" | 31 => "v" | 32 => "w" | 33 => "x"
  | 34 => "y" | 35 => "z"
  | _ => itoa s

/-- The loop body of `ConvertIntToColumnName`: prepend the digit for
`s % 36`; continue with `(s - s % 36) / 36 = s / 36` while `s / 36 ≥ 1`. -/
def convertGo : Nat → Nat → String
  | 0, _ => ""
  | f + 1, s =>
    if s < 36 then getAlpabetByInt (s % 36)
    else convertGo f (s / 36) ++ getAlpabetByInt (s % 36)

def ConvertIntToColumnName (s : Nat) : String := convertGo (s + 1) s

/-- Base-36 positional numeral with digits `0-9` then `a-z`, as the spec
words it (the reference for the refinement claim about
`ConvertIntToColumnName`). -/
def base36digit (d : Nat) : Char :=
  if d < 10 then Char.ofNat (48 + d) else Char.ofNat (87 + d)

def base36Go : Nat → Nat → String
  | 0, _ => ""
  | f + 1, n =>
    if n < 36 then String.mk [base36digit n]
    else base36Go f (n / 36) ++ String.mk [base36digit (n % 36)]

def base36spec (n : Nat) : String := base36Go (n + 1) n

/-! ## Name hygiene -/

/-- The character class `[A-Za-z0-9#$_.]` kept by `cleanVarNameRegExp`. -/
def goodChar (c : Char) : Bool :=
  let n := c.toNat
  (65 ≤ n ∧ n ≤ 90) ∨ (97 ≤ n ∧ n ≤ 122) ∨ (48 ≤ n ∧ n ≤ 57) ∨
    n = 35 ∨ n = 36 ∨ n = 95 ∨ n = 46

def isAsciiLetter (c : Char) : Bool :=
  (65 ≤ c.toNat ∧ c.toNat ≤ 90) ∨ (97 ≤ c.toNat ∧ c.toNat ≤ 122)

/-- `cleanVarName`: drop characters outside the class, substitute
`"illegal"` when empty, prefix `@` when the first character is not a letter,
truncate to 64 bytes. -/
def cleanVarName (n : String) : String :=
  let cs := n.data.filter goodChar
  let cs := if cs = [] then "illegal".data else cs
  let cs := match cs with
    | c :: _ => if isAsciiLetter c then cs else '@' :: cs
    | [] => cs
  if 64 < cs.length then String.mk (cs.take 64) else String.mk cs

/-- ASCII upper-casing, the effect of `strings.ToUpper` on cleaned names. -/
def asciiUpper (c : Char) : Char :=
  if 97 ≤ c.toNat ∧ c.toNat ≤ 122 then Char.ofNat (c.toNat - 32) else c

def toUpperStr (s : String) : String := String.mk (s.data.map asciiUpper)

/-! ## The data model -/

structure GoLabel where
  value : String
  desc : String
  deriving DecidableEq

inductive DictType where
  | numeric | date | datetime | str
  deriving DecidableEq

structure Var where
  columnIndex : Int := 0
  index : Int := 0
  name : String := ""
  shortName : String := ""
  type : DictType := DictType.numeric
  typeSize : Int := 0
  print : Nat := 0
  width : Nat := 0
  decimals : Nat := 0
  measure : Int := 0
  label : String := ""
  default : String := ""
  hasDefault : Bool := false
  labels : List GoLabel := []
  value : String := ""
  hasValue : Bool := false
  segments : Nat := 1
  deriving DecidableEq

instance : Inhabited Var := ⟨{}⟩

/-- `SegmentWidth` of `sav.go`. -/
def segmentWidth (v : Var) (index : Nat) : Int :=
  if v.typeSize ≤ 255 then v.typeSize
  else if (index : Int) < (v.segments : Int) - 1 then 255
  else v.typeSize - ((v.segments : Int) - 1) * 252

/-- The segment count `AddVar` assigns: `(typeSize + 251) / 252` above 255
characters, otherwise 1. -/
def segCount (typeSize : Int) : Nat :=
  if 255 < typeSize then (typeSize.toNat + 251) / 252 else 1

/-- Elements a variable occupies: `sum over segments of
elementCount(segmentWidth)`. -/
def varElements (v : Var) : Int :=
  ((List.range v.segments).map fun s => elementCount (segmentWidth v s)).sum

/-- Sum of the segment widths of a variable. -/
def sumSegmentWidths (v : Var) : Int :=
  ((List.range v.segments).map (segmentWidth v)).sum

/-- State of an `SpssWriter`. The buffered writer is modelled write-through:
every write lands at the end of `file` immediately (all seeking happens only
in `updateHeaderNCases`, after both flushes, so the byte sequence is the
same). `failAfter` models an I/O failure of the sink: a write fails once the
file would exceed that many bytes. `rands` models the stream of
`rand.Int()` values, `dictMap`/`shortMap` the two Go maps (for the short-name
map only the key set is ever read by the source, so only keys are kept;
`dictMap` stores the position of each variable in `dict`, standing for the Go
pointer). -/
structure SpssWriter where
  file : List Nat := []
  failAfter : Option Nat := none
  bcOpcodes : List Nat := []
  bcOperands : List Nat := []
  dict : List Var := []
  dictMap : List (String × Nat) := []
  shortMap : List String := []
  count : Nat := 0
  index : Int := 1
  columnIndex : Int := 0
  ignoreMissingVar : Bool := false
  rands : List Nat := []
  deriving DecidableEq

instance : Inhabited SpssWriter := ⟨{}⟩

/-- `NewSpssWriter`: empty dictionary and maps, `Index` starts at 1. -/
def NewSpssWriter (failAfter : Option Nat) (rands : List Nat) : SpssWriter :=
  { failAfter := failAfter, rands := rands }

/-- Outcome of a writer operation: success, an I/O error returned to the
caller, a `log.Fatal` process exit, or exhaustion of the fuel bounding the
short-name retry loop (a modelling artifact, never hit with enough fuel). -/
inductive WRes where
  | ok (st : SpssWriter)
  | wErr (st : SpssWriter)
  | fatal
  | noFuel
  deriving DecidableEq

def WRes.andThen : WRes → (SpssWriter → WRes) → WRes
  | .ok st, f => f st
  | r, _ => r

def WRes.getOk : WRes → SpssWriter
  | .ok st => st
  | .wErr st => st
  | _ => default

def WRes.isOk : WRes → Bool
  | .ok _ => true
  | _ => false

/-- A write to the (buffered view of the) sink. -/
def sinkWrite (st : SpssWriter) (bs : List Nat) : WRes :=
  match st.failAfter with
  | some n => if n < st.file.length + bs.length then .wErr st
              else .ok { st with file := st.file ++ bs }
  | none => .ok { st with file := st.file ++ bs }

/-! ## The bytecode compressor (modelled from the spec, §4.2) -/

/-- Append one opcode and its operand bytes to the current command block;
when the block holds 8 opcodes, emit the block header and the queued
operands and reset. -/
def bcAdd (st : SpssWriter) (op : Nat) (oper : List Nat) : WRes :=
  let ops := st.bcOpcodes ++ [op]
  let os := st.bcOperands ++ oper
  if ops.length = 8 then
    (sinkWrite st (ops ++ os)).andThen fun st2 =>
      .ok { st2 with bcOpcodes := [], bcOperands := [] }
  else .ok { st with bcOpcodes := ops, bcOperands := os }

/-- `WriteMissing`: the system-missing opcode 255, no operand. -/
def bcWriteMissing (st : SpssWriter) : WRes := bcAdd st 255 []

/-- `WriteNumber`: an integer whose biased opcode `v + 100` lies in 1–251 is
written as that single opcode; anything else as opcode 253 followed by the
eight IEEE-754 bytes. -/
def bcWriteNumber (st : SpssWriter) (q : Q) : WRes :=
  if qeqb q (Q.ofInt (qfloor q)) ∧ 1 ≤ qfloor q + 100 ∧ qfloor q + 100 ≤ 251 then
    bcAdd st (qfloor q + 100).toNat []
  else bcAdd st 253 (f64le q)

/-- One 8-byte chunk of a string: all-blank chunks become opcode 254, others
opcode 253 with the (space-padded) raw bytes; `n` chunks in total. -/
def bcWriteChunks : SpssWriter → List Nat → Nat → WRes
  | st, _, 0 => .ok st
  | st, p, n + 1 =>
    let chunk := p.take 8 ++ List.replicate (8 - (p.take 8).length) 32
    (if chunk.all (· = 32) then bcAdd st 254 [] else bcAdd st 253 chunk).andThen
      fun st2 => bcWriteChunks st2 (p.drop 8) n

/-- `Flush`: pad the pending opcodes to 8 with opcode 0 and emit the final
block (nothing to do when no opcode is pending). -/
def bcFlush (st : SpssWriter) : WRes :=
  if st.bcOpcodes = [] then .ok st
  else
    (sinkWrite st (st.bcOpcodes ++ List.replicate (8 - st.bcOpcodes.length) 0
        ++ st.bcOperands)).andThen fun st2 =>
      .ok { st2 with bcOpcodes := [], bcOperands := [] }

/-- `writeString` of `sav.go`: per segment, feed the next 255-byte slice of
the value to the compressor as `elementCount (segmentWidth)` chunks. -/
def writeStringLoop (v : Var) : SpssWriter → List Nat → List Nat → WRes
  | st, _, [] => .ok st
  | st, val, s :: ss =>
    let p := if 255 < val.length then val.take 255 else val
    let rest := if 255 < val.length then val.drop 255 else []
    (bcWriteChunks st p (elementCount (segmentWidth v s)).toNat).andThen fun st2 =>
      writeStringLoop v st2 rest ss

def writeString (st : SpssWriter) (v : Var) (val : List Nat) : WRes :=
  writeStringLoop v st val (List.range v.segments)

/-! ## Record emitters

Each record is written by the source as a sequence of `binary.Write`/`Write`
calls on the same buffered sink; here the bytes of one record are computed
first and appended by a single `sinkWrite`, which produces the identical byte
sequence (only the state at which a failing write stops differs, and no
theorem looks at the file contents after an error). -/

/-- `caseSize`: total element count of the dictionary. -/
def caseSizeW (st : SpssWriter) : Int := (st.dict.map varElements).sum

/-- `VarCount`: total segment count. -/
def varCountW (dict : List Var) : Int := (dict.map fun v => (v.segments : Int)).sum

/-- The 176 bytes of `headerRecord`; the creation date and time strings stand
for `time.Now()` formatted as in the source. -/
def headerRecordBytes (caseSize : Int) (fileLabel dateStr timeStr : String) : List Nat :=
  stob "$FL2" 4 ++
  stob "@(#) SPSS DATA FILE - xml2sav 2.0" 60 ++
  i32le 2 ++
  i32le caseSize ++
  i32le 1 ++
  i32le 0 ++
  i32le (-1) ++
  f64le ⟨100, 1⟩ ++
  stob dateStr 9 ++
  stob timeStr 8 ++
  stob fileLabel 64 ++
  stob "\x00\x00\x00" 3

/-- Replace the element at position `i`. -/
def listModify : List α → Nat → (α → α) → List α
  | [], _, _ => []
  | x :: xs, 0, f => f x :: xs
  | x :: xs, n + 1, f => x :: listModify xs n f

/-- The collision-resolution loop of `makeShortName`; `fuel` bounds the
iterations, `rands` supplies `rand.Int()` values for the `@`-fallback. -/
def makeShortNameLoop (shortMap : List String) (baseName : String) :
    String → Nat → List Nat → Nat → Option (String × List Nat)
  | _, _, _, 0 => none
  | short, segment, rands, fuel + 1 =>
    if short ∈ shortMap then
      let appendText := toUpperStr (ConvertIntToColumnName segment)
      if 3 < appendText.length then
        match rands with
        | [] => none
        | r :: rs =>
          makeShortNameLoop shortMap baseName ("@" ++ itoa (r % 10000000))
            (segment + 1) rs fuel
      else
        makeShortNameLoop shortMap baseName (baseName ++ appendText)
          (segment + 1) rands fuel
    else some (short, rands)

/-- `makeShortName`: first candidate is the upper-cased 5-byte prefix plus
`"0"`; on success the accepted name is registered in the short-name map. -/
def makeShortName (st : SpssWriter) (v : Var) (segment : Nat) (fuel : Nat) :
    Option (String × SpssWriter) :=
  let baseName := toUpperStr (trim v.name 5)
  match makeShortNameLoop st.shortMap baseName (baseName ++ "0") segment st.rands fuel with
  | none => none
  | some (short, rs) =>
    some (short, { st with shortMap := st.shortMap ++ [short], rands := rs })

/-- One continuation record for a segment wider than 8 bytes. -/
def contBlock : List Nat :=
  i32le 2 ++ i32le (-1) ++ i32le 0 ++ i32le 0 ++ i32le 0 ++ i32le 0 ++ stob "        " 8

def contBytes (n : Nat) : List Nat := List.flatten (List.replicate n contBlock)

/-- The bytes of one variable record (one segment), with `short` the name
chosen for this segment. -/
def segBytes (v : Var) (s : Nat) (short : String) : List Nat :=
  let width := segmentWidth v s
  let format : Int :=
    if 0 < v.typeSize then (v.print : Int) * 65536 + width * 256
    else (v.print : Int) * 65536 + (v.width : Int) * 256 + (v.decimals : Int)
  let l := (strBytes v.label).length
  i32le 2 ++ i32le width ++
  i32le (if s = 0 ∧ v.label ≠ "" then 1 else 0) ++
  i32le 0 ++ i32le format ++ i32le format ++
  stob short 8 ++
  (if s = 0 ∧ v.label ≠ "" then
    i32le (l : Int) ++ strBytes v.label ++ List.replicate ((4 - l % 4) % 4) 0
   else []) ++
  (if 8 < width then contBytes ((elementCount width).toNat - 1) else [])

/-- Inner loop of `variableRecords` over the segments of the variable at
dictionary position `i`; at segment 0 the allocated short name is stored in
the variable. -/
def varRecSegLoop (fuel : Nat) (i : Nat) : SpssWriter → Nat → Nat → WRes
  | st, _, 0 => .ok st
  | st, s, rem + 1 =>
    match st.dict.get? i with
    | none => .ok st
    | some v =>
      match makeShortName st v s fuel with
      | none => .noFuel
      | some (short, st2) =>
        let st3 :=
          if s = 0 then
            { st2 with dict := listModify st2.dict i fun w => { w with shortName := short } }
          else st2
        (sinkWrite st3 (segBytes v s short)).andThen fun st4 =>
          varRecSegLoop fuel i st4 (s + 1) rem

def varRecordsLoop (fuel : Nat) : SpssWriter → Nat → Nat → WRes
  | st, _, 0 => .ok st
  | st, i, rem + 1 =>
    match st.dict.get? i with
    | none => .ok st
    | some v =>
      (varRecSegLoop fuel i st 0 v.segments).andThen fun st2 =>
        varRecordsLoop fuel st2 (i + 1) rem

def variableRecords (fuel : Nat) (st : SpssWriter) : WRes :=
  varRecordsLoop fuel st 0 st.dict.length

/-- The 8-byte value written for one value label: numerics go through `atof`
(`strconv.ParseFloat` with bit size 32, `log.Fatalln` on error, hence
`none`); strings are space-padded to 8 bytes. -/
def valueLabelValueBytes (v : Var) (l : GoLabel) : Option (List Nat) :=
  if v.typeSize = 0 then (parseFloat32 l.value).map f64le
  else some (stob l.value 8)

/-- Value, length byte, truncated description and space padding for one
label. -/
def valueLabelEntry (v : Var) (l : GoLabel) : Option (List Nat) :=
  (valueLabelValueBytes v l).map fun vb =>
    let n := min (strBytes l.desc).length 120
    vb ++ [n % 256] ++ stobB (strBytes l.desc) n ++
      List.replicate ((8 - (n + 1) % 8) % 8) 32

def valueLabelEntries (v : Var) : List GoLabel → Option (List Nat)
  | [] => some []
  | l :: ls =>
    match valueLabelEntry v l, valueLabelEntries v ls with
    | some b, some bs => some (b ++ bs)
    | _, _ => none

/-- The rec-type 3 and rec-type 4 records of one variable with labels. -/
def valueLabelRecBytes (v : Var) : Option (List Nat) :=
  (valueLabelEntries v v.labels).map fun entries =>
    i32le 3 ++ i32le (v.labels.length : Int) ++ entries ++
    i32le 4 ++ i32le 1 ++ i32le v.index

/-- `valueLabelRecords` over the dictionary: only variables with labels and
`typeSize ≤ 8` produce records. -/
def valueLabelsAll : List Var → Option (List Nat)
  | [] => some []
  | v :: vs =>
    let here := if v.labels ≠ [] ∧ v.typeSize ≤ 8 then valueLabelRecBytes v else some []
    match here, valueLabelsAll vs with
    | some b, some bs => some (b ++ bs)
    | _, _ => none

def valueLabelRecords (st : SpssWriter) : WRes :=
  match valueLabelsAll st.dict with
  | none => .fatal
  | some bs => sinkWrite st bs

def machineIntegerInfoBytes : List Nat :=
  i32le 7 ++ i32le 3 ++ i32le 4 ++ i32le 8 ++ i32le 0 ++ i32le 10 ++ i32le 1 ++
  i32le (-1) ++ i32le 1 ++ i32le 1 ++ i32le 2 ++ i32le 65001

def machineFloatingPointInfoBytes : List Nat :=
  i32le 7 ++ i32le 4 ++ i32le 8 ++ i32le 3 ++
  f64le maxFloat64.neg ++ f64le maxFloat64 ++ f64le maxFloat64.neg

/-- Width/measure/alignment triple per segment. -/
def displayEntry (v : Var) (s : Nat) : List Nat :=
  i32le v.measure ++
  (if 0 < v.typeSize then
    (if s ≠ 0 then i32le 8
     else if v.typeSize ≤ maxPrintStringWidth then i32le v.typeSize
     else i32le maxPrintStringWidth) ++ i32le 0
   else i32le 8 ++ i32le 1)

def variableDisplayParameterBytes (dict : List Var) : List Nat :=
  i32le 7 ++ i32le 11 ++ i32le 4 ++ i32le (varCountW dict * 3) ++
  (dict.map fun v => ((List.range v.segments).map fun s => displayEntry v s).flatten).flatten

/-- The tab-joined `SHORT=long` payload and its record. -/
def longVarNameBytes (dict : List Var) : List Nat :=
  let buf := (List.intercalate [9]
    (dict.map fun v => strBytes v.shortName ++ [61] ++ strBytes v.name))
  i32le 7 ++ i32le 13 ++ i32le 1 ++ i32le (buf.length : Int) ++ buf

/-- The payload of the very-long-string record: per multi-segment variable,
`SHORT=` then `strconv.Itoa(typeSize)` padded to 5 bytes with NUL bytes on
the right (`stobp` appends its pad byte), then a NUL and a tab. -/
def veryLongStringPayload (dict : List Var) : List Nat :=
  ((dict.filter fun v => 1 < v.segments).map fun v =>
    strBytes v.shortName ++ [61] ++ stobpB (strBytes (itoa v.typeSize.toNat)) 5 0 ++
      [0, 9]).flatten

/-- `veryLongStringRecord`: nothing at all unless some variable has more than
one segment. -/
def veryLongStringBytes (dict : List Var) : List Nat :=
  if dict.all fun v => ¬ 1 < v.segments then []
  else
    let buf := veryLongStringPayload dict
    i32le 7 ++ i32le 14 ++ i32le 1 ++ i32le (buf.length : Int) ++ buf

def encodingRecordBytes : List Nat :=
  i32le 7 ++ i32le 20 ++ i32le 1 ++ i32le 5 ++ strBytes "UTF-8"

def longStringLabelVarBytes (v : Var) : List Nat :=
  i32le ((strBytes v.shortName).length : Int) ++ strBytes v.shortName ++
  i32le v.typeSize ++ i32le (v.labels.length : Int) ++
  (v.labels.map fun l =>
    i32le ((strBytes l.value).length : Int) ++ strBytes l.value ++
    i32le ((strBytes l.desc).length : Int) ++ strBytes l.desc).flatten

def longStringValueLabelsBytes (dict : List Var) : List Nat :=
  if dict.all fun v => ¬ (v.labels ≠ [] ∧ 8 < v.typeSize) then []
  else
    let buf := ((dict.filter fun v => v.labels ≠ [] ∧ 8 < v.typeSize).map
      longStringLabelVarBytes).flatten
    i32le 7 ++ i32le 21 ++ i32le 1 ++ i32le (buf.length : Int) ++ buf

def terminationRecordBytes : List Nat := i32le 999 ++ i32le 0

/-! ## Dictionary building and the case writer -/

/-- `AddVar`; `none` models the two `log.Fatal` exits (type size above
51200; duplicate long name, checked on the name as passed in, which is also
the key registered in the long-name map). -/
def AddVar (st : SpssWriter) (v : Var) : Option SpssWriter :=
  if maxStringLength < v.typeSize then none
  else
    let origName := v.name
    let v1 := { v with name := cleanVarName v.name }
    if (st.dictMap.find? fun p => p.1 = origName).isSome then none
    else
      let v2 := { v1 with segments := segCount v1.typeSize }
      let v3 := { v2 with index := st.index }
      let st1 := { st with
        index := st.index + varElements v3,
        columnIndex := st.columnIndex + 1 }
      let v4 := { v3 with columnIndex := st1.columnIndex }
      some { st1 with
        dict := st1.dict ++ [v4],
        dictMap := st1.dictMap ++ [(origName, st1.dict.length)] }

/-- `ClearCase`: reset every transient value. -/
def ClearCase (st : SpssWriter) : SpssWriter :=
  { st with dict := st.dict.map fun v => { v with value := "", hasValue := false } }

/-- `SetVar`; unknown names are fatal unless `IgnoreMissingVar`. -/
def SetVar (st : SpssWriter) (name value : String) : WRes :=
  match st.dictMap.find? fun p => p.1 = name with
  | none => if st.ignoreMissingVar then .ok st else .fatal
  | some p =>
    .ok { st with dict := listModify st.dict p.2 fun v =>
      { v with value := value, hasValue := true } }

/-- The per-variable body of `WriteCase`. Two source quirks are preserved:
the empty-date branch writes the eight raw bytes of `-math.MaxFloat64`
straight to the buffered writer (not through the bytecode compressor), and
the date/datetime parse uses `v.Value` rather than the resolved `val`. -/
def writeCaseVar (st : SpssWriter) (v : Var) : WRes :=
  if v.hasValue || v.hasDefault then
    let val := if v.hasValue then v.value else v.default
    if 0 < v.typeSize then
      let b := strBytes val
      let tval := if v.typeSize.toNat < b.length then b.take v.typeSize.toNat else b
      writeString st v tval
    else if v.print = SPSS_FMT_DATE then
      if val = "" then sinkWrite st (f64le maxFloat64.neg)
      else
        match parseGoDate v.value with
        | none => bcWriteMissing st
        | some t => bcWriteNumber st (Q.ofInt (t + TimeOffset))
    else if v.print = SPSS_FMT_DATE_TIME then
      if val = "" then bcWriteMissing st
      else
        match parseGoDateTime v.value with
        | none => bcWriteMissing st
        | some t => bcWriteNumber st (Q.ofInt (t + TimeOffset))
    else
      if val = "" then bcWriteMissing st
      else
        match parseFloat64 val with
        | none => bcWriteMissing st
        | some f => bcWriteNumber st f
  else
    if 0 < v.typeSize then writeString st v []
    else bcWriteMissing st

def writeCaseVars : SpssWriter → List Var → WRes
  | st, [] => .ok st
  | st, v :: vs => (writeCaseVar st v).andThen fun st2 => writeCaseVars st2 vs

/-- `WriteCase`: encode every variable in dictionary order, then increment
the case count. -/
def WriteCase (st : SpssWriter) : WRes :=
  (writeCaseVars st st.dict).andThen fun st2 => .ok { st2 with count := st2.count + 1 }

/-- `Start`: the eleven records in order. -/
def Start (st : SpssWriter) (fileLabel dateStr timeStr : String) (fuel : Nat) : WRes :=
  (sinkWrite st (headerRecordBytes (caseSizeW st) fileLabel dateStr timeStr)).andThen
    fun s1 =>
  (variableRecords fuel s1).andThen fun s2 =>
  (valueLabelRecords s2).andThen fun s3 =>
  (sinkWrite s3 machineIntegerInfoBytes).andThen fun s4 =>
  (sinkWrite s4 machineFloatingPointInfoBytes).andThen fun s5 =>
  (sinkWrite s5 (variableDisplayParameterBytes s5.dict)).andThen fun s6 =>
  (sinkWrite s6 (longVarNameBytes s6.dict)).andThen fun s7 =>
  (sinkWrite s7 (veryLongStringBytes s7.dict)).andThen fun s8 =>
  (sinkWrite s8 encodingRecordBytes).andThen fun s9 =>
  (sinkWrite s9 (longStringValueLabelsBytes s9.dict)).andThen fun s10 =>
  sinkWrite s10 terminationRecordBytes

/-- `updateHeaderNCases`: flush the compressor and the buffer, seek to byte
80 and overwrite the `ncases` placeholder with the count. -/
def updateHeaderNCases (st : SpssWriter) : WRes :=
  (bcFlush st).andThen fun st2 =>
    .ok { st2 with file := st2.file.take 80 ++ i32le (st2.count : Int) ++ st2.file.drop 84 }

def Finish (st : SpssWriter) : WRes := updateHeaderNCases st

/-! ## Session traces

`Reach st n st2` says the writer state `st2` arises from `st` through a
sequence of `ClearCase`, successful `SetVar` and `WriteCase` calls of which
exactly `n` `WriteCase` invocations returned success. -/

inductive Reach : SpssWriter → Nat → SpssWriter → Prop where
  | refl (st : SpssWriter) : Reach st 0 st
  | clear {st st2 : SpssWriter} {n : Nat} :
      Reach st n st2 → Reach st n (ClearCase st2)
  | setv {st st2 st3 : SpssWriter} {n : Nat} (name value : String) :
      Reach st n st2 → SetVar st2 name value = .ok st3 → Reach st n st3
  | caseOk {st st2 st3 : SpssWriter} {n : Nat} :
      Reach st n st2 → WriteCase st2 = .ok st3 → Reach st (n + 1) st3
  | caseErr {st st2 st3 : SpssWriter} {n : Nat} :
      Reach st n st2 → WriteCase st2 = .wErr st3 → Reach st n st3

/-- `st2` extends `st` by appending bytes to the file, leaving the case count
unchanged. -/
def FileExtends (st st2 : SpssWriter) : Prop :=
  (∃ tail, st2.file = st.file ++ tail) ∧ st2.count = st.count

/-- A writer operation that, on success or I/O error, only appends bytes to
the file and keeps the case count. -/
def PresExt (f : SpssWriter → WRes) : Prop :=
  ∀ st st2, (f st = .ok st2 ∨ f st = .wErr st2) → FileExtends st st2

/-- A short name as claim C8 describes it: at most 8 bytes, ASCII, and free
of lowercase letters. -/
def GoodShort (s : String) : Prop :=
  s.data.length ≤ 8 ∧ ∀ c ∈ s.data, c.toNat < 128 ∧ ¬ (97 ≤ c.toNat ∧ c.toNat ≤ 122)

/-- A base candidate for short names: at most 5 characters, ASCII, no
lowercase. -/
def GoodBase (s : String) : Prop :=
  s.data.length ≤ 5 ∧ ∀ c ∈ s.data, c.toNat < 128 ∧ ¬ (97 ≤ c.toNat ∧ c.toNat ≤ 122)

/-- The short-name map is collision-free and every allocated name is a good
short name. -/
def ShortInv (st : SpssWriter) : Prop :=
  st.shortMap.Nodup ∧ ∀ s ∈ st.shortMap, GoodShort s

/-- Every dictionary variable name is ASCII (which `cleanVarName`
guarantees for names added through `AddVar`). -/
def DictAscii (st : SpssWriter) : Prop :=
  ∀ v ∈ st.dict, ∀ c ∈ v.name.data, c.toNat < 128

/-- Spec-side payload entry of the very-long-string record, written from the
amended claim: short name, `=`, the decimal type size padded on the right
with NUL bytes to five bytes, a NUL and a tab. -/
def veryLongSpecEntry (v : Var) : List Nat :=
  strBytes v.shortName ++ strBytes "=" ++
  (strBytes (itoa v.typeSize.toNat) ++
    List.replicate (5 - (strBytes (itoa v.typeSize.toNat)).length) 0) ++ [0] ++ [9]

def veryLongStringSpecPayload (dict : List Var) : List Nat :=
  ((dict.filter fun v => 1 < v.segments).map veryLongSpecEntry).flatten

/-- The bytes that follow the 8-byte value inside one value-label entry, as
the spec describes them: a length byte (the description capped at 120 bytes),
the truncated description, and space padding so that value, length byte,
description and padding together fill a multiple of 8 bytes. Claim C9 is
about the 8 value bytes that precede these. -/
def labelDescSpecBytes (l : GoLabel) : List Nat :=
  let n := min (strBytes l.desc).length 120
  [n % 256] ++ stobB (strBytes l.desc) n ++ List.replicate ((8 - (n + 1) % 8) % 8) 32

/-! ## Concrete instances used by witnesses and counterexamples -/

/-- A variable as claim C2 quantifies it: type size `T`, segment count as
`AddVar` assigns it. -/
def mkSegVar (T : Int) : Var := { typeSize := T, segments := segCount T }

/-- A plain numeric variable as the native writer builds one. -/
def sampleNumVar : Var :=
  { name := "age", type := DictType.numeric, print := SPSS_FMT_F,
    width := 8, decimals := 0, measure := 1 }

def c1base : SpssWriter := NewSpssWriter none []

def c1run : WRes := Start c1base "" "05 Feb 26" "12:00:00" 10

def c1st1 : SpssWriter := c1run.getOk

def c1st2 : SpssWriter := (WriteCase c1st1).getOk

def c1st3 : SpssWriter := (Finish c1st2).getOk

/-- C4's failing input: a date variable whose resolved value is `""`. -/
def c4var : Var :=
  { name := "dob", type := DictType.date, print := SPSS_FMT_DATE, width := 11,
    decimals := 0, measure := 3, hasValue := true, value := "" }

def c4st : SpssWriter := { NewSpssWriter none [] with dict := [c4var] }

/-- C6's failing input: a date variable with a parseable default and no
per-case value. -/
def c6var : Var :=
  { name := "dob", type := DictType.date, print := SPSS_FMT_DATE, width := 11,
    decimals := 0, measure := 3, hasDefault := true, default := "1-Jan-1970" }

def c6st : SpssWriter := { NewSpssWriter none [] with dict := [c6var] }

/-- C5's input: a 600-character string variable named `essay`. -/
def c5var : Var :=
  { name := "essay", type := DictType.str, typeSize := 600, print := SPSS_FMT_A,
    width := 40, decimals := 0, measure := 1 }

def c5base : SpssWriter := (AddVar (NewSpssWriter none []) c5var).getD default

def c5run : WRes := Start c5base "lbl" "05 Feb 26" "12:00:00" 10

def c5dict : List Var := c5run.getOk.dict

def c7base : SpssWriter := NewSpssWriter none []

def c7st : SpssWriter := (AddVar c7base sampleNumVar).getD default

/-- C9's inputs: numeric variables with a parseable and an unparseable value
label. -/
def c9varGood : Var :=
  { name := "sex", type := DictType.numeric, print := SPSS_FMT_F, width := 8,
    decimals := 0, measure := 1, labels := [⟨"0.1", "lbl"⟩] }

def c9stGood : SpssWriter := (AddVar (NewSpssWriter none []) c9varGood).getD default

def c9runGood : WRes := Start c9stGood "lbl" "05 Feb 26" "12:00:00" 10

def c9varBad : Var :=
  { name := "sex", type := DictType.numeric, print := SPSS_FMT_F, width := 8,
    decimals := 0, measure := 1, labels := [⟨"abc", "x"⟩] }

def c9stBad : SpssWriter := (AddVar (NewSpssWriter none []) c9varBad).getD default

/-- The final state of the successful C9 run. -/
def c9goodSt1 : SpssWriter := c9runGood.getOk

/-- The (single) dictionary entry of `c9stBad`, as `AddVar` stored it. -/
def c9badVar : Var := c9stBad.dict.getD 0 c9varBad

/-- The state after the header record of the fatal C9 run. -/
def c9badS1 : SpssWriter :=
  (sinkWrite c9stBad
    (headerRecordBytes (caseSizeW c9stBad) "lbl" "05 Feb 26" "12:00:00")).getOk

/-- The state after the variable records of the fatal C9 run. -/
def c9badS2 : SpssWriter := (variableRecords 10 c9badS1).getOk

def c10okSt : SpssWriter := (AddVar (NewSpssWriter none []) sampleNumVar).getD default

def c10okRes : SpssWriter := (WriteCase c10okSt).getOk

/-- A state whose next compressor opcode completes a block while the sink
admits no further bytes, so `WriteCase` hits an I/O error. -/
def c10failSt : SpssWriter :=
  { NewSpssWriter (some 0) [] with
    dict := [sampleNumVar],
    bcOpcodes := [142, 142, 142, 142, 142, 142, 142] }

def c10failRes : SpssWriter := (WriteCase c10failSt).getOk

def c8var1 : Var :=
  { name := "score1", type := DictType.numeric, print := SPSS_FMT_F, width := 8,
    decimals := 0, measure := 1 }

def c8var2 : Var :=
  { name := "score2", type := DictType.numeric, print := SPSS_FMT_F, width := 8,
    decimals := 0, measure := 1 }

def c8base : SpssWriter :=
  (do
    let s1 ← AddVar (NewSpssWriter none []) c8var1
    AddVar s1 c8var2).getD default

def c8run : WRes := Start c8base "lbl" "05 Feb 26" "12:00:00" 10

def c8st1 : SpssWriter := c8run.getOk

/-! # Theorems -/

/-! ## C2: the segment-width law -/

theorem sum_range_map_const_of_width (v : Var) :
    ∀ j, (∀ i, i < j → segmentWidth v i = 255) →
      ((List.range j).map (segmentWidth v)).sum = 255 * j := by
  intro j
  induction j with
  | zero => intro _; simp
  | succ j ih =>
    intro h
    rw [List.range_succ, List.map_append, List.sum_append,
      ih fun i hi => h i (by omega), List.map_singleton, List.sum_singleton,
      h j (by omega)]
    push_cast
    ring

/-- C2, as stated, is false: for type size 600 the writer plans 3 segments of
widths 255, 255 and 96, whose sum is 606, not 600. -/
theorem c2_counterexample :
    (mkSegVar 600).typeSize = 600 ∧
    (mkSegVar 600).segments = segCount 600 ∧
    sumSegmentWidths (mkSegVar 600) = 606 ∧
    ¬ sumSegmentWidths (mkSegVar 600) = (mkSegVar 600).typeSize := by
  refine ⟨rfl, rfl, by decide, by decide⟩

/-- C2 amended: for a variable with type size `T ≥ 0` and the segment count
`AddVar` assigns, the widths sum to `T` when `T ≤ 255`; when `T > 255` every
non-final segment has width exactly 255 and the widths sum to
`T + 3·(segments − 1)` (each non-final segment advances the logical string by
only 252 of its 255 bytes), with `segments = (T + 251) / 252`. -/
theorem c2_segment_width_law (T : Int) (hT : 0 ≤ T) :
    (T ≤ 255 → sumSegmentWidths (mkSegVar T) = T) ∧
    (255 < T →
      segCount T = (T.toNat + 251) / 252 ∧
      (∀ i, i < segCount T - 1 → segmentWidth (mkSegVar T) i = 255) ∧
      sumSegmentWidths (mkSegVar T) = T + 3 * ((segCount T : Int) - 1)) := by
  constructor
  · intro h255
    have hseg : segCount T = 1 := by simp [segCount]; omega
    simp [sumSegmentWidths, mkSegVar, hseg, List.range_succ, segmentWidth, h255]
  · intro h255
    have hseg : segCount T = (T.toNat + 251) / 252 := by simp [segCount, h255]
    have hk2 : 2 ≤ segCount T := by rw [hseg]; omega
    have hnonfinal : ∀ i, i < segCount T - 1 → segmentWidth (mkSegVar T) i = 255 := by
      intro i hi
      have h1 : ¬ T ≤ 255 := by omega
      have h2 : (i : Int) < ((segCount T : Nat) : Int) - 1 := by omega
      simp only [segmentWidth, mkSegVar]
      rw [if_neg h1, if_pos h2]
    refine ⟨hseg, hnonfinal, ?_⟩
    have hk1 : segCount T = (segCount T - 1) + 1 := by omega
    rw [sumSegmentWidths]
    conv_lhs => rw [show (mkSegVar T).segments = (segCount T - 1) + 1 from hk1]
    rw [List.range_succ, List.map_append, List.sum_append,
      sum_range_map_const_of_width (mkSegVar T) (segCount T - 1) hnonfinal,
      List.map_singleton, List.sum_singleton]
    have hlast : segmentWidth (mkSegVar T) (segCount T - 1) =
        T - ((segCount T : Int) - 1) * 252 := by
      have h1 : ¬ T ≤ 255 := by omega
      have h2 : ¬ ((segCount T - 1 : Nat) : Int) < ((segCount T : Nat) : Int) - 1 := by
        omega
      simp only [segmentWidth, mkSegVar]
      rw [if_neg h1, if_neg h2]
    rw [hlast]
    omega

theorem c2_witness :
    sumSegmentWidths (mkSegVar 600) = 600 + 3 * ((segCount 600 : Int) - 1) :=
  ((c2_segment_width_law 600 (by decide)).2 (by decide)).2.2

/-! ## C3: `ConvertIntToColumnName` is base-36 -/

theorem getAlpabet_eq_base36digit : ∀ d, d < 36 →
    getAlpabetByInt d = String.mk [base36digit d] := by decide

theorem convertGo_eq_base36Go : ∀ f s, s < f → convertGo f s = base36Go f s := by
  intro f
  induction f with
  | zero => intro s hs; omega
  | succ f ih =>
    intro s hs
    unfold convertGo base36Go
    by_cases h : s < 36
    · rw [if_pos h, if_pos h, Nat.mod_eq_of_lt h, getAlpabet_eq_base36digit s h]
    · rw [if_neg h, if_neg h,
        ih (s / 36) (by
          have h1 : s / 36 < s := Nat.div_lt_self (by omega) (by omega)
          omega),
        getAlpabet_eq_base36digit (s % 36) (Nat.mod_lt _ (by omega))]

/-- C3: `ConvertIntToColumnName` produces the base-36 numeral (digits `0-9`
then `a-z`) of every non-negative integer, and in particular satisfies the
ten concrete pairs of the claim. -/
theorem c3_column_name_base36 :
    (∀ n, ConvertIntToColumnName n = base36spec n) ∧
    (ConvertIntToColumnName 35 = "z" ∧ ConvertIntToColumnName 36 = "10" ∧
     ConvertIntToColumnName 47 = "1b" ∧ ConvertIntToColumnName 70 = "1y" ∧
     ConvertIntToColumnName 71 = "1z" ∧ ConvertIntToColumnName 72 = "20" ∧
     ConvertIntToColumnName 1259 = "yz" ∧ ConvertIntToColumnName 1260 = "z0" ∧
     ConvertIntToColumnName 1295 = "zz" ∧ ConvertIntToColumnName 1296 = "100") :=
  ⟨fun n => convertGo_eq_base36Go (n + 1) n (by omega), by decide⟩

/-! ## C7: `AddVar` fatal conditions -/

/-- C7: `AddVar` refuses (by `log.Fatal`, modelled as `none`) exactly when
the type size exceeds 51200 or the long name is already a key of the
dictionary map; otherwise the variable — name cleaned, segments planned,
index and column index assigned — is appended to the dictionary and its long
name registered in the long-name map. -/
theorem c7_addvar_fatal_conditions (st : SpssWriter) (v : Var) :
    (AddVar st v = none ↔
      maxStringLength < v.typeSize ∨
        (st.dictMap.find? fun p => p.1 = v.name).isSome = true) ∧
    (∀ st2, AddVar st v = some st2 →
      st2.dict = st.dict ++
        [{ v with
           name := cleanVarName v.name, segments := segCount v.typeSize,
           index := st.index, columnIndex := st.columnIndex + 1 }] ∧
      st2.dictMap = st.dictMap ++ [(v.name, st.dict.length)] ∧
      st2.index = st.index + varElements
        { v with
          name := cleanVarName v.name, segments := segCount v.typeSize,
          index := st.index } ∧
      st2.shortMap = st.shortMap ∧ st2.count = st.count ∧ st2.file = st.file) := by
  unfold AddVar
  by_cases h1 : maxStringLength < v.typeSize
  · simp [h1]
  · by_cases h2 : (st.dictMap.find? fun p => p.1 = v.name).isSome = true
    · simp [h1, h2]
    · simp [h1, h2]

theorem c7_witness :
    AddVar c7base sampleNumVar = some c7st ∧
    c7st.dict = c7base.dict ++
      [{ sampleNumVar with
         name := cleanVarName sampleNumVar.name,
         segments := segCount sampleNumVar.typeSize, index := c7base.index,
         columnIndex := c7base.columnIndex + 1 }] ∧
    c7st.dictMap = c7base.dictMap ++ [(sampleNumVar.name, c7base.dict.length)] :=
  ⟨by decide,
   ((c7_addvar_fatal_conditions c7base sampleNumVar).2 c7st (by decide)).1,
   ((c7_addvar_fatal_conditions c7base sampleNumVar).2 c7st (by decide)).2.1⟩

/-! ## C4: empty date values bypass the compressor -/

/-- C4 names a code bug: for a date variable whose resolved value is the
empty string, `WriteCase` writes the eight raw IEEE-754 bytes of
`-math.MaxFloat64` directly to the buffered writer instead of queueing the
system-missing opcode 255 in the compressor (as `WriteMissing`, used by the
datetime and numeric branches, would: compare the last two conjuncts). -/
theorem c4_empty_date_bypasses_compressor :
    WriteCase c4st = .ok { c4st with file := f64le maxFloat64.neg, count := 1 } ∧
    f64le maxFloat64.neg = [255, 255, 255, 255, 255, 255, 239, 255] ∧
    (WriteCase c4st).getOk.bcOpcodes = [] ∧
    (WriteCase c4st).getOk.bcOperands = [] ∧
    (bcWriteMissing c4st).getOk.bcOpcodes = [255] ∧
    (bcWriteMissing c4st).getOk.file = [] := by
  refine ⟨by decide, by decide, by decide, by decide, by decide, by decide⟩

/-! ## C6: defaults of date variables are not parsed -/

/-- C6 names a code bug: a date variable with a parseable default and no
per-case value resolves `val` to the default, but the source then parses
`v.Value` (the empty transient value) instead of `val`, so the parse fails
and opcode 255 is queued; the default is never encoded (a correct encode of
the default would queue opcode 253 with the eight bytes of
`unixSeconds + TimeOffset`, as the last two conjuncts show). -/
theorem c6_default_date_not_parsed :
    c6var.hasDefault = true ∧ c6var.hasValue = false ∧
    parseGoDate c6var.default = some 0 ∧
    (WriteCase c6st).isOk = true ∧
    (WriteCase c6st).getOk.bcOpcodes = [255] ∧
    (WriteCase c6st).getOk.bcOperands = [] ∧
    (bcWriteNumber c6st (Q.ofInt (0 + TimeOffset))).getOk.bcOpcodes = [253] ∧
    (bcWriteNumber c6st (Q.ofInt (0 + TimeOffset))).getOk.bcOperands =
      f64le (Q.ofInt TimeOffset) := by
  refine ⟨rfl, rfl, by decide, by decide, by decide, by decide, by decide, by decide⟩

/-! ## C5: the very-long-string record -/

theorem itoaGo_length : ∀ (f k n : Nat), n < 10 ^ k → 0 < k →
    (itoaGo f n).data.length ≤ k := by
  intro f
  induction f with
  | zero => intro k n _ _; simp [itoaGo]
  | succ f ih =>
    intro k n hn hk
    unfold itoaGo
    by_cases h : n < 10
    · simpa [h] using hk
    · have hk2 : 2 ≤ k := by
        by_contra hcon
        have : k = 1 := by omega
        subst this
        simp at hn
        omega
      have hdiv : n / 10 < 10 ^ (k - 1) := by
        rw [Nat.div_lt_iff_lt_mul (by omega)]
        calc n < 10 ^ k := hn
        _ = 10 ^ (k - 1) * 10 := by
          conv_lhs => rw [show k = (k - 1) + 1 by omega]
          ring
      have hrec := ih (k - 1) (n / 10) hdiv (by omega)
      rw [if_neg h]
      rw [String.data_append, List.length_append]
      have hone : (String.mk [digitChar (n % 10)]).data.length = 1 := rfl
      omega

theorem itoa_length_le (k n : Nat) (hn : n < 10 ^ k) (hk : 0 < k) :
    (itoa n).data.length ≤ k := itoaGo_length (n + 1) k n hn hk

theorem stobpB_pad_of_le {s : List Nat} {l : Nat} (pad : Nat) (h : s.length ≤ l) :
    stobpB s l pad = s ++ List.replicate (l - s.length) pad := by
  unfold stobpB
  rw [if_neg (by omega)]

theorem veryLong_payload_eq (dict : List Var)
    (h : ∀ v ∈ dict, v.typeSize ≤ maxStringLength) :
    veryLongStringPayload dict = veryLongStringSpecPayload dict := by
  unfold veryLongStringPayload veryLongStringSpecPayload
  congr 1
  apply List.map_congr_left
  intro v hv
  have hvd : v ∈ dict := (List.mem_filter.mp hv).1
  have hts : v.typeSize ≤ maxStringLength := h v hvd
  have hlen : (strBytes (itoa v.typeSize.toNat)).length ≤ 5 := by
    have h5 : v.typeSize.toNat < 10 ^ 5 := by
      have := hts
      unfold maxStringLength at this
      omega
    have := itoa_length_le 5 v.typeSize.toNat h5 (by omega)
    simpa [strBytes] using this
  unfold veryLongSpecEntry
  rw [stobpB_pad_of_le 0 hlen]
  simp [strBytes, List.append_assoc]

/-- C5, as stated, is false: the decimal type size is padded on the right
with NUL bytes (`stobp` appends its pad byte), not zero-padded on the left,
and the 600-wide variable named `essay` carries the short name `ESSAY0`: its
payload entry is `ESSAY0=600\x00\x00\x00\x09`, not `ESSAY=00600\x00\x09` (nor
`ESSAY0=00600\x00\x09`). -/
theorem c5_counterexample :
    c5run.isOk = true ∧
    c5dict.map (fun v => v.shortName) = ["ESSAY0"] ∧
    c5dict.map (fun v => v.segments) = [3] ∧
    c5dict.map (fun v => v.typeSize) = [600] ∧
    veryLongStringPayload c5dict = strBytes "ESSAY0=600" ++ [0, 0, 0, 9] ∧
    veryLongStringPayload c5dict ≠ strBytes "ESSAY0=" ++ strBytes "00600" ++ [0, 9] ∧
    veryLongStringPayload c5dict ≠ strBytes "ESSAY=00600" ++ [0, 9] := by
  refine ⟨by decide, by decide, by decide, by decide, by decide, by decide, by decide⟩

/-- C5 amended: the very-long-string record is emitted iff some variable has
more than one segment, and its payload is the concatenation, per such
variable in dictionary order, of the short name, `=`, the decimal type size
padded on the right with NUL bytes to 5 bytes, then a NUL byte and a tab
byte (a 600-wide variable named `essay` contributes `ESSAY0=600\0\0\0\t`). -/
theorem c5_very_long_string_record (dict : List Var)
    (h : ∀ v ∈ dict, v.typeSize ≤ maxStringLength) :
    (veryLongStringBytes dict = [] ↔ ∀ v ∈ dict, ¬ 1 < v.segments) ∧
    ((∃ v ∈ dict, 1 < v.segments) →
      veryLongStringBytes dict =
        i32le 7 ++ i32le 14 ++ i32le 1 ++
        i32le ((veryLongStringSpecPayload dict).length : Int) ++
        veryLongStringSpecPayload dict) := by
  unfold veryLongStringBytes
  by_cases hall : dict.all (fun v => ¬ 1 < v.segments) = true
  · rw [if_pos hall]
    simp only [List.all_eq_true, decide_eq_true_eq] at hall
    constructor
    · exact ⟨fun _ => hall, fun _ => rfl⟩
    · rintro ⟨v, hv, hseg⟩
      exact absurd hseg (hall v hv)
  · rw [if_neg hall]
    simp only [List.all_eq_true, decide_eq_true_eq] at hall
    push_neg at hall
    constructor
    · constructor
      · intro habs
        exact absurd habs (by simp [i32le])
      · intro hforall
        obtain ⟨v, hv, hseg⟩ := hall
        exact absurd hseg (hforall v hv)
    · intro _
      rw [veryLong_payload_eq dict h]

theorem c5_witness :
    veryLongStringBytes c5dict =
      i32le 7 ++ i32le 14 ++ i32le 1 ++
      i32le ((veryLongStringSpecPayload c5dict).length : Int) ++
      veryLongStringSpecPayload c5dict :=
  (c5_very_long_string_record c5dict (by decide)).2 (by decide)

/-! ## Write-step invariants shared by C1 and C10 -/

@[simp] theorem andThen_ok (st : SpssWriter) (f : SpssWriter → WRes) :
    (WRes.ok st).andThen f = f st := rfl

@[simp] theorem andThen_wErr (st : SpssWriter) (f : SpssWriter → WRes) :
    (WRes.wErr st).andThen f = .wErr st := rfl

@[simp] theorem andThen_fatal (f : SpssWriter → WRes) :
    WRes.fatal.andThen f = .fatal := rfl

@[simp] theorem andThen_noFuel (f : SpssWriter → WRes) :
    WRes.noFuel.andThen f = .noFuel := rfl

theorem fileExtends_refl (st : SpssWriter) : FileExtends st st :=
  ⟨⟨[], by simp⟩, rfl⟩

theorem fileExtends_trans {a b c : SpssWriter} (h1 : FileExtends a b)
    (h2 : FileExtends b c) : FileExtends a c := by
  obtain ⟨⟨t1, ht1⟩, hc1⟩ := h1
  obtain ⟨⟨t2, ht2⟩, hc2⟩ := h2
  exact ⟨⟨t1 ++ t2, by rw [ht2, ht1, List.append_assoc]⟩, hc2.trans hc1⟩

theorem andThen_ext {st0 : SpssWriter} {r : WRes} {f : SpssWriter → WRes}
    (hr : ∀ st2, (r = .ok st2 ∨ r = .wErr st2) → FileExtends st0 st2)
    (hf : PresExt f) :
    ∀ st2, (r.andThen f = .ok st2 ∨ r.andThen f = .wErr st2) → FileExtends st0 st2 := by
  cases r with
  | ok s =>
    intro st2 h
    exact fileExtends_trans (hr s (Or.inl rfl)) (hf s st2 (by simpa using h))
  | wErr s =>
    intro st2 h
    rcases h with h | h
    · exact absurd h (by simp)
    · simp only [andThen_wErr, WRes.wErr.injEq] at h
      exact h ▸ hr s (Or.inr rfl)
  | fatal => intro st2 h; rcases h with h | h <;> exact absurd h (by simp)
  | noFuel => intro st2 h; rcases h with h | h <;> exact absurd h (by simp)

theorem presExt_andThenF {f g : SpssWriter → WRes} (hf : PresExt f) (hg : PresExt g) :
    PresExt fun st => (f st).andThen g :=
  fun st st2 h => andThen_ext (fun s hs => hf st s hs) hg st2 h

theorem andThen_eq_ok {r : WRes} {f : SpssWriter → WRes} {st2 : SpssWriter}
    (h : r.andThen f = .ok st2) : ∃ s, r = .ok s ∧ f s = .ok st2 := by
  cases r <;> simp_all

theorem andThen_eq_wErr {r : WRes} {f : SpssWriter → WRes} {st2 : SpssWriter}
    (h : r.andThen f = .wErr st2) :
    (∃ s, r = .ok s ∧ f s = .wErr st2) ∨ r = .wErr st2 := by
  cases r <;> simp_all

theorem sinkWrite_ok_eq {st st2 : SpssWriter} {bs : List Nat}
    (h : sinkWrite st bs = .ok st2) : st2 = { st with file := st.file ++ bs } := by
  unfold sinkWrite at h
  split at h
  · split at h
    · cases h
    · cases h; rfl
  · cases h; rfl

theorem sinkWrite_err_eq {st st2 : SpssWriter} {bs : List Nat}
    (h : sinkWrite st bs = .wErr st2) : st2 = st := by
  unfold sinkWrite at h
  split at h
  · split at h
    · cases h; rfl
    · cases h
  · cases h

theorem sinkWrite_ext {st st2 : SpssWriter} {bs : List Nat}
    (h : sinkWrite st bs = .ok st2 ∨ sinkWrite st bs = .wErr st2) :
    FileExtends st st2 := by
  rcases h with h | h
  · rw [sinkWrite_ok_eq h]; exact ⟨⟨bs, rfl⟩, rfl⟩
  · rw [sinkWrite_err_eq h]; exact fileExtends_refl st

theorem presExt_sinkWriteF (F : SpssWriter → List Nat) :
    PresExt fun st => sinkWrite st (F st) := fun _ _ h => sinkWrite_ext h

theorem bcAdd_ext (op : Nat) (oper : List Nat) {st st2 : SpssWriter}
    (h : bcAdd st op oper = .ok st2 ∨ bcAdd st op oper = .wErr st2) :
    FileExtends st st2 := by
  rcases h with h | h
  · simp only [bcAdd] at h
    split at h
    · obtain ⟨s, hsw, hf⟩ := andThen_eq_ok h
      cases hf
      obtain ⟨⟨t, ht⟩, hc⟩ := sinkWrite_ext (Or.inl hsw)
      exact ⟨⟨t, ht⟩, hc⟩
    · cases h; exact ⟨⟨[], by simp⟩, rfl⟩
  · simp only [bcAdd] at h
    split at h
    · rcases andThen_eq_wErr h with ⟨s, hsw, hf⟩ | hsw
      · cases hf
      · exact sinkWrite_ext (Or.inr hsw)
    · cases h

theorem presExt_bcAdd (op : Nat) (oper : List Nat) :
    PresExt fun st => bcAdd st op oper := fun _ _ h => bcAdd_ext op oper h

theorem presExt_bcWriteMissing : PresExt bcWriteMissing :=
  fun _ _ h => bcAdd_ext 255 [] h

theorem bcWriteNumber_ext (q : Q) {st st2 : SpssWriter}
    (h : bcWriteNumber st q = .ok st2 ∨ bcWriteNumber st q = .wErr st2) :
    FileExtends st st2 := by
  unfold bcWriteNumber at h
  split at h
  · exact bcAdd_ext _ [] h
  · exact bcAdd_ext 253 (f64le q) h

theorem presExt_bcWriteNumber (q : Q) : PresExt fun st => bcWriteNumber st q :=
  fun _ _ h => bcWriteNumber_ext q h

theorem presExt_bcWriteChunks : ∀ (n : Nat) (p : List Nat),
    PresExt fun st => bcWriteChunks st p n := by
  intro n
  induction n with
  | zero =>
    intro p st st2 h
    simp only [bcWriteChunks] at h
    rcases h with h | h
    · cases h; exact fileExtends_refl _
    · cases h
  | succ n ih =>
    intro p st st2 h
    simp only [bcWriteChunks] at h
    refine andThen_ext ?_ (ih (p.drop 8)) st2 h
    intro s hs
    split at hs
    · exact bcAdd_ext 254 [] hs
    · exact bcAdd_ext 253 _ hs

theorem presExt_writeStringLoop (v : Var) : ∀ (ss : List Nat) (val : List Nat),
    PresExt fun st => writeStringLoop v st val ss := by
  intro ss
  induction ss with
  | nil =>
    intro val st st2 h
    simp only [writeStringLoop] at h
    rcases h with h | h
    · cases h; exact fileExtends_refl _
    · cases h
  | cons s ss ih =>
    intro val st st2 h
    simp only [writeStringLoop] at h
    exact andThen_ext (fun s2 hs => presExt_bcWriteChunks _ _ st s2 hs) (ih _) st2 h

theorem writeString_ext (v : Var) (val : List Nat) {st st2 : SpssWriter}
    (h : writeString st v val = .ok st2 ∨ writeString st v val = .wErr st2) :
    FileExtends st st2 := by
  unfold writeString at h
  exact presExt_writeStringLoop v (List.range v.segments) val st st2 h

theorem presExt_writeCaseVar (v : Var) : PresExt fun st => writeCaseVar st v := by
  intro st st2 h
  simp only [writeCaseVar] at h
  repeat' split at h
  all_goals
    first
      | exact writeString_ext _ _ h
      | exact sinkWrite_ext h
      | exact presExt_bcWriteMissing _ _ h
      | exact bcWriteNumber_ext _ h

theorem presExt_writeCaseVars : ∀ (vs : List Var),
    PresExt fun st => writeCaseVars st vs := by
  intro vs
  induction vs with
  | nil =>
    intro st st2 h
    simp only [writeCaseVars] at h
    rcases h with h | h
    · cases h; exact fileExtends_refl _
    · cases h
  | cons v vs ih =>
    intro st st2 h
    simp only [writeCaseVars] at h
    exact andThen_ext (fun s hs => presExt_writeCaseVar v st s hs) ih st2 h

/-- A successful `WriteCase` appends bytes and increments the count by one. -/
theorem writeCase_ok_spec {st st2 : SpssWriter} (h : WriteCase st = .ok st2) :
    (∃ tail, st2.file = st.file ++ tail) ∧ st2.count = st.count + 1 := by
  unfold WriteCase at h
  cases hw : writeCaseVars st st.dict with
  | ok s =>
    rw [hw] at h
    simp only [andThen_ok, WRes.ok.injEq] at h
    obtain ⟨⟨t, ht⟩, hc⟩ := presExt_writeCaseVars st.dict st s (Or.inl hw)
    subst h
    exact ⟨⟨t, ht⟩, by simp [hc]⟩
  | wErr s => rw [hw] at h; cases h
  | fatal => rw [hw] at h; cases h
  | noFuel => rw [hw] at h; cases h

/-- A failed `WriteCase` may have appended bytes but leaves the count
unchanged. -/
theorem writeCase_err_spec {st st2 : SpssWriter} (h : WriteCase st = .wErr st2) :
    (∃ tail, st2.file = st.file ++ tail) ∧ st2.count = st.count := by
  unfold WriteCase at h
  cases hw : writeCaseVars st st.dict with
  | ok s => rw [hw] at h; simp only [andThen_ok] at h; cases h
  | wErr s =>
    rw [hw] at h
    simp only [andThen_wErr, WRes.wErr.injEq] at h
    obtain ⟨⟨t, ht⟩, hc⟩ := presExt_writeCaseVars st.dict st s (Or.inr hw)
    subst h
    exact ⟨⟨t, ht⟩, hc⟩
  | fatal => rw [hw] at h; cases h
  | noFuel => rw [hw] at h; cases h

/-! ## C10: the case count advances exactly on success -/

/-- C10: `WriteCase` increments the case count exactly once, after all
variables are encoded; when it returns an error, the count is unchanged
(bytes of the partial case may already be in the stream). -/
theorem c10_writecase_count (st : SpssWriter) :
    (∀ st2, WriteCase st = .ok st2 → st2.count = st.count + 1) ∧
    (∀ st2, WriteCase st = .wErr st2 → st2.count = st.count) :=
  ⟨fun _ h => (writeCase_ok_spec h).2, fun _ h => (writeCase_err_spec h).2⟩

theorem c10_witness :
    WriteCase c10okSt = .ok c10okRes ∧ c10okRes.count = c10okSt.count + 1 ∧
    WriteCase c10failSt = .wErr c10failRes ∧ c10failRes.count = c10failSt.count :=
  ⟨by decide, (c10_writecase_count c10okSt).1 c10okRes (by decide), by decide,
   (c10_writecase_count c10failSt).2 c10failRes (by decide)⟩

/-! ## C1: the case-count patch at offset 80 -/

theorem stobB_length (s : List Nat) (l : Nat) : (stobB s l).length = l := by
  unfold stobB
  split
  · simp [List.length_take]; omega
  · simp; omega

theorem stob_length (s : String) (l : Nat) : (stob s l).length = l :=
  stobB_length (strBytes s) l

theorem i32le_length (i : Int) : (i32le i).length = 4 := rfl

theorem f64le_length (q : Q) : (f64le q).length = 8 := by
  simp [f64le]

theorem headerRecordBytes_length (c : Int) (lbl ds ts : String) :
    (headerRecordBytes c lbl ds ts).length = 176 := by
  simp [headerRecordBytes, List.length_append, stob_length, i32le_length, f64le_length]

/-- Drop a leading chunk of known length. -/
theorem drop_chunk {a r : List Nat} {n : Nat} (ha : a.length = n) (m : Nat) :
    (a ++ r).drop (n + m) = r.drop m := by
  subst ha; exact List.drop_append m

/-- Bytes 80..83 of the header (plus anything after it) are the `ncases`
placeholder, the little-endian int32 −1. -/
theorem header_placeholder (c : Int) (lbl ds ts : String) (tail : List Nat) :
    ((headerRecordBytes c lbl ds ts ++ tail).drop 80).take 4 = i32le (-1) := by
  have h : headerRecordBytes c lbl ds ts ++ tail =
      stob "$FL2" 4 ++ (stob "@(#) SPSS DATA FILE - xml2sav 2.0" 60 ++ (i32le 2 ++
        (i32le c ++ (i32le 1 ++ (i32le 0 ++ (i32le (-1) ++ (f64le ⟨100, 1⟩ ++
          (stob ds 9 ++ (stob ts 8 ++ (stob lbl 64 ++
            (stob "\x00\x00\x00" 3 ++ tail))))))))))) := by
    simp [headerRecordBytes, List.append_assoc]
  rw [h, show (80 : Nat) = 4 + 76 from rfl, drop_chunk (stob_length _ _),
    show (76 : Nat) = 60 + 16 from rfl, drop_chunk (stob_length _ _),
    show (16 : Nat) = 4 + 12 from rfl, drop_chunk (i32le_length _),
    show (12 : Nat) = 4 + 8 from rfl, drop_chunk (i32le_length _),
    show (8 : Nat) = 4 + 4 from rfl, drop_chunk (i32le_length _),
    show (4 : Nat) = 4 + 0 from rfl, drop_chunk (i32le_length _), List.drop_zero,
    List.take_left' (i32le_length _)]

/-- Extracting bytes 80..83 after the `updateHeaderNCases` splice yields the
spliced int32. -/
theorem patch_extract (l : List Nat) (c : Int) (h : 80 ≤ l.length) :
    ((l.take 80 ++ (i32le c ++ l.drop 84)).drop 80).take 4 = i32le c := by
  rw [List.drop_left' (by simp [List.length_take]; omega),
    List.take_left' (i32le_length c)]

theorem makeShortName_state {st st2 : SpssWriter} {v : Var} {segment fuel : Nat}
    {short : String} (h : makeShortName st v segment fuel = some (short, st2)) :
    ∃ rs, st2 = { st with shortMap := st.shortMap ++ [short], rands := rs } := by
  simp only [makeShortName] at h
  split at h
  · cases h
  · next sh rs heq =>
      cases h
      exact ⟨rs, rfl⟩

theorem presExt_varRecSegLoop (fuel i : Nat) : ∀ (rem s : Nat),
    PresExt fun st => varRecSegLoop fuel i st s rem := by
  intro rem
  induction rem with
  | zero =>
    intro s st st2 h
    simp only [varRecSegLoop] at h
    rcases h with h | h
    · cases h; exact fileExtends_refl _
    · cases h
  | succ rem ih =>
    intro s st st2 h
    simp only [varRecSegLoop] at h
    split at h
    · rcases h with h | h
      · cases h; exact fileExtends_refl _
      · cases h
    · split at h
      · rcases h with h | h <;> cases h
      · next short st2x hms =>
          obtain ⟨rs, rfl⟩ := makeShortName_state hms
          refine andThen_ext ?_ (fun a b hab => ih (s + 1) a b hab) st2 h
          intro s2 hs
          refine fileExtends_trans ?_ (sinkWrite_ext hs)
          split
          · exact ⟨⟨[], by simp⟩, rfl⟩
          · exact ⟨⟨[], by simp⟩, rfl⟩

theorem presExt_varRecordsLoop (fuel : Nat) : ∀ (rem i : Nat),
    PresExt fun st => varRecordsLoop fuel st i rem := by
  intro rem
  induction rem with
  | zero =>
    intro i st st2 h
    simp only [varRecordsLoop] at h
    rcases h with h | h
    · cases h; exact fileExtends_refl _
    · cases h
  | succ rem ih =>
    intro i st st2 h
    simp only [varRecordsLoop] at h
    split at h
    · rcases h with h | h
      · cases h; exact fileExtends_refl _
      · cases h
    · exact andThen_ext (fun s hs => presExt_varRecSegLoop fuel i _ 0 st s hs)
        (ih (i + 1)) st2 h

theorem presExt_variableRecords (fuel : Nat) :
    PresExt fun st => variableRecords fuel st := by
  intro st st2 h
  unfold variableRecords at h
  exact presExt_varRecordsLoop fuel st.dict.length 0 st st2 h

theorem presExt_valueLabelRecords : PresExt valueLabelRecords := by
  intro st st2 h
  unfold valueLabelRecords at h
  split at h
  · rcases h with h | h <;> cases h
  · exact sinkWrite_ext h

theorem presExt_bcFlush : PresExt bcFlush := by
  intro st st2 h
  rcases h with h | h
  · simp only [bcFlush] at h
    split at h
    · cases h; exact fileExtends_refl _
    · obtain ⟨s, hsw, hf⟩ := andThen_eq_ok h
      cases hf
      obtain ⟨⟨t, ht⟩, hc⟩ := sinkWrite_ext (Or.inl hsw)
      exact ⟨⟨t, ht⟩, hc⟩
  · simp only [bcFlush] at h
    split at h
    · cases h
    · rcases andThen_eq_wErr h with ⟨s, hsw, hf⟩ | hsw
      · cases hf
      · exact sinkWrite_ext (Or.inr hsw)

/-- A successful `Start` appends the header record followed by the other
records, leaving the count unchanged. -/
theorem start_decomp {st st1 : SpssWriter} {lbl ds ts : String} {fuel : Nat}
    (h : Start st lbl ds ts fuel = .ok st1) :
    (∃ tail, st1.file = st.file ++ headerRecordBytes (caseSizeW st) lbl ds ts ++ tail) ∧
    st1.count = st.count := by
  unfold Start at h
  obtain ⟨s1, hsw, hk⟩ := andThen_eq_ok h
  have hs1 := sinkWrite_ok_eq hsw
  have hrest : PresExt fun s1 => (variableRecords fuel s1).andThen fun s2 =>
      (valueLabelRecords s2).andThen fun s3 =>
      (sinkWrite s3 machineIntegerInfoBytes).andThen fun s4 =>
      (sinkWrite s4 machineFloatingPointInfoBytes).andThen fun s5 =>
      (sinkWrite s5 (variableDisplayParameterBytes s5.dict)).andThen fun s6 =>
      (sinkWrite s6 (longVarNameBytes s6.dict)).andThen fun s7 =>
      (sinkWrite s7 (veryLongStringBytes s7.dict)).andThen fun s8 =>
      (sinkWrite s8 encodingRecordBytes).andThen fun s9 =>
      (sinkWrite s9 (longStringValueLabelsBytes s9.dict)).andThen fun s10 =>
      sinkWrite s10 terminationRecordBytes :=
    presExt_andThenF (fun a b hab => presExt_variableRecords fuel a b hab)
      (presExt_andThenF presExt_valueLabelRecords
        (presExt_andThenF (presExt_sinkWriteF fun _ => machineIntegerInfoBytes)
          (presExt_andThenF (presExt_sinkWriteF fun _ => machineFloatingPointInfoBytes)
            (presExt_andThenF (presExt_sinkWriteF fun s => variableDisplayParameterBytes s.dict)
              (presExt_andThenF (presExt_sinkWriteF fun s => longVarNameBytes s.dict)
                (presExt_andThenF (presExt_sinkWriteF fun s => veryLongStringBytes s.dict)
                  (presExt_andThenF (presExt_sinkWriteF fun _ => encodingRecordBytes)
                    (presExt_andThenF (presExt_sinkWriteF fun s => longStringValueLabelsBytes s.dict)
                      (presExt_sinkWriteF fun _ => terminationRecordBytes)))))))))
  obtain ⟨⟨t, ht⟩, hc⟩ := hrest s1 st1 (Or.inl hk)
  subst hs1
  exact ⟨⟨t, by rw [ht]⟩, hc⟩

theorem setVar_state {st st2 : SpssWriter} {name value : String}
    (h : SetVar st name value = .ok st2) :
    st2.file = st.file ∧ st2.count = st.count := by
  unfold SetVar at h
  split at h
  · split at h
    · cases h; exact ⟨rfl, rfl⟩
    · cases h
  · cases h; exact ⟨rfl, rfl⟩

/-- Along any session trace, the count grows by exactly the number of
successful `WriteCase` calls, and the file only grows. -/
theorem reach_spec {st st2 : SpssWriter} {n : Nat} (h : Reach st n st2) :
    st2.count = st.count + n ∧ ∃ tail, st2.file = st.file ++ tail := by
  induction h with
  | refl => exact ⟨rfl, ⟨[], by simp⟩⟩
  | clear _ ih => exact ih
  | setv name value _ hset ih =>
    obtain ⟨hc, ⟨t, ht⟩⟩ := ih
    obtain ⟨hf2, hc2⟩ := setVar_state hset
    exact ⟨hc2.trans hc, ⟨t, hf2.trans ht⟩⟩
  | caseOk _ hcase ih =>
    obtain ⟨hc, ⟨t, ht⟩⟩ := ih
    obtain ⟨⟨t2, ht2⟩, hc2⟩ := writeCase_ok_spec hcase
    exact ⟨by omega, ⟨t ++ t2, by rw [ht2, ht, List.append_assoc]⟩⟩
  | caseErr _ hcase ih =>
    obtain ⟨hc, ⟨t, ht⟩⟩ := ih
    obtain ⟨⟨t2, ht2⟩, hc2⟩ := writeCase_err_spec hcase
    exact ⟨hc2.trans hc, ⟨t ++ t2, by rw [ht2, ht, List.append_assoc]⟩⟩

/-- C1: start a writer on an empty sink, run any sequence of case operations
of which `n` `WriteCase` calls succeed, and finish. The four bytes at file
offset 80..83 — written as the int32 −1 placeholder by `Start` — then hold
the little-endian int32 `n`. -/
theorem c1_case_count_patch (st0 : SpssWriter) (lbl ds ts : String) (fuel : Nat)
    (st1 st2 st3 : SpssWriter) (n : Nat)
    (hfile : st0.file = []) (hcount : st0.count = 0)
    (hstart : Start st0 lbl ds ts fuel = .ok st1)
    (hreach : Reach st1 n st2)
    (hfin : Finish st2 = .ok st3) :
    (st1.file.drop 80).take 4 = i32le (-1) ∧
    (st3.file.drop 80).take 4 = i32le (n : Int) := by
  obtain ⟨⟨t1, ht1⟩, hc1⟩ := start_decomp hstart
  rw [hfile] at ht1
  simp only [List.nil_append] at ht1
  obtain ⟨hc2, ⟨t2, ht2⟩⟩ := reach_spec hreach
  constructor
  · rw [ht1]
    exact header_placeholder _ lbl ds ts t1
  · unfold Finish updateHeaderNCases at hfin
    obtain ⟨s, hbc, hpatch⟩ := andThen_eq_ok hfin
    cases hpatch
    obtain ⟨⟨t3, ht3⟩, hc3⟩ := presExt_bcFlush st2 s (Or.inl hbc)
    have hlen : 80 ≤ s.file.length := by
      rw [ht3, ht2, ht1]
      simp [List.length_append, headerRecordBytes_length]
      omega
    have hcnt : s.count = n := by
      rw [hc3, hc2, hc1, hcount]
      omega
    simpa [hcnt] using patch_extract s.file ((s.count : Nat) : Int) hlen

theorem c1_witness :
    (c1st1.file.drop 80).take 4 = i32le (-1) ∧
    (c1st3.file.drop 80).take 4 = i32le ((1 : Nat) : Int) :=
  c1_case_count_patch c1base "" "05 Feb 26" "12:00:00" 10 c1st1 c1st2 c1st3 1
    (by decide) (by decide) (by decide)
    (Reach.caseOk (Reach.refl c1st1) (by decide)) (by decide)

/-! ## C8: short names after `Start` -/

theorem char_toNat_ofNat_small : ∀ n, n < 128 → (Char.ofNat n).toNat = n := by decide

theorem asciiUpper_toNat {c : Char} (h : c.toNat < 128) :
    (asciiUpper c).toNat < 128 ∧
      ¬ (97 ≤ (asciiUpper c).toNat ∧ (asciiUpper c).toNat ≤ 122) := by
  unfold asciiUpper
  by_cases hc : 97 ≤ c.toNat ∧ c.toNat ≤ 122
  · rw [if_pos hc, char_toNat_ofNat_small (c.toNat - 32) (by omega)]
    omega
  · rw [if_neg hc]
    exact ⟨h, hc⟩

theorem toUpperStr_data (s : String) : (toUpperStr s).data = s.data.map asciiUpper := rfl

theorem toUpperStr_chars {s : String} (h : ∀ c ∈ s.data, c.toNat < 128) :
    ∀ c ∈ (toUpperStr s).data,
      c.toNat < 128 ∧ ¬ (97 ≤ c.toNat ∧ c.toNat ≤ 122) := by
  intro c hc
  rw [toUpperStr_data] at hc
  obtain ⟨c0, hc0, rfl⟩ := List.mem_map.mp hc
  exact asciiUpper_toNat (h c0 hc0)

theorem toUpperStr_length (s : String) : (toUpperStr s).data.length = s.data.length := by
  rw [toUpperStr_data, List.length_map]

theorem string_length_eq (s : String) : s.length = s.data.length := rfl

theorem trim_length_le (s : String) (l : Nat) : (trim s l).data.length ≤ l := by
  unfold trim
  split
  · simp [List.length_take]
  · next hlen => omega

theorem trim_subset (s : String) (l : Nat) : ∀ c ∈ (trim s l).data, c ∈ s.data := by
  unfold trim
  split
  · intro c hc
    exact List.take_subset l s.data (by simpa using hc)
  · intro c hc; exact hc

theorem goodBase_of_ascii {name : String} (h : ∀ c ∈ name.data, c.toNat < 128) :
    GoodBase (toUpperStr (trim name 5)) := by
  refine ⟨?_, ?_⟩
  · rw [toUpperStr_length]; exact trim_length_le name 5
  · exact toUpperStr_chars fun c0 hc0 => h c0 (trim_subset name 5 c0 hc0)

theorem goodShort_base0 {base : String} (hb : GoodBase base) :
    GoodShort (base ++ "0") := by
  obtain ⟨hlen, hchars⟩ := hb
  constructor
  · rw [String.data_append, List.length_append]
    have h1 : ("0" : String).data.length = 1 := rfl
    omega
  · intro c hc
    rw [String.data_append] at hc
    rcases List.mem_append.mp hc with hc | hc
    · exact hchars c hc
    · have : c = '0' := by simpa using hc
      subst this
      decide

theorem getAlpabet_chars : ∀ d, d < 36 → ∀ c ∈ (getAlpabetByInt d).data,
    (48 ≤ c.toNat ∧ c.toNat ≤ 57) ∨ (97 ≤ c.toNat ∧ c.toNat ≤ 122) := by decide

theorem convertGo_chars : ∀ (f s : Nat), ∀ c ∈ (convertGo f s).data,
    (48 ≤ c.toNat ∧ c.toNat ≤ 57) ∨ (97 ≤ c.toNat ∧ c.toNat ≤ 122) := by
  intro f
  induction f with
  | zero => intro s c hc; simp [convertGo] at hc
  | succ f ih =>
    intro s c hc
    simp only [convertGo] at hc
    split at hc
    · exact getAlpabet_chars (s % 36) (Nat.mod_lt _ (by omega)) c hc
    · rw [String.data_append] at hc
      rcases List.mem_append.mp hc with hc | hc
      · exact ih (s / 36) c hc
      · exact getAlpabet_chars (s % 36) (Nat.mod_lt _ (by omega)) c hc

theorem digitChar_bounds : ∀ d, d < 10 →
    48 ≤ (digitChar d).toNat ∧ (digitChar d).toNat ≤ 57 := by decide

theorem itoaGo_chars : ∀ (f n : Nat), ∀ c ∈ (itoaGo f n).data,
    48 ≤ c.toNat ∧ c.toNat ≤ 57 := by
  intro f
  induction f with
  | zero => intro n c hc; simp [itoaGo] at hc
  | succ f ih =>
    intro n c hc
    simp only [itoaGo] at hc
    split at hc
    · next hn =>
        have : c = digitChar n := by simpa using hc
        subst this
        exact digitChar_bounds n hn
    · rw [String.data_append] at hc
      rcases List.mem_append.mp hc with hc | hc
      · exact ih (n / 10) c hc
      · have : c = digitChar (n % 10) := by simpa using hc
        subst this
        exact digitChar_bounds (n % 10) (Nat.mod_lt _ (by omega))

theorem goodShort_fallback (r : Nat) : GoodShort ("@" ++ itoa (r % 10000000)) := by
  constructor
  · rw [String.data_append, List.length_append]
    have h7 : (itoa (r % 10000000)).data.length ≤ 7 :=
      itoa_length_le 7 (r % 10000000) (by omega) (by omega)
    have h1 : ("@" : String).data.length = 1 := rfl
    omega
  · intro c hc
    rw [String.data_append] at hc
    rcases List.mem_append.mp hc with hc | hc
    · have : c = '@' := by simpa using hc
      subst this
      decide
    · have := itoaGo_chars (r % 10000000 + 1) (r % 10000000) c hc
      omega

theorem goodShort_append {base appendText : String} (hb : GoodBase base)
    (hlen : appendText.data.length ≤ 3)
    (hchars : ∀ c ∈ appendText.data,
      c.toNat < 128 ∧ ¬ (97 ≤ c.toNat ∧ c.toNat ≤ 122)) :
    GoodShort (base ++ appendText) := by
  obtain ⟨hbl, hbc⟩ := hb
  constructor
  · rw [String.data_append, List.length_append]; omega
  · intro c hc
    rw [String.data_append] at hc
    rcases List.mem_append.mp hc with hc | hc
    · exact hbc c hc
    · exact hchars c hc

theorem makeShortNameLoop_good : ∀ (fuel : Nat) (map : List String)
    (base short : String) (seg : Nat) (rands : List Nat) (res : String × List Nat),
    makeShortNameLoop map base short seg rands fuel = some res →
    GoodBase base → GoodShort short →
    res.1 ∉ map ∧ GoodShort res.1 := by
  intro fuel
  induction fuel with
  | zero => intro map base short seg rands res h; cases h
  | succ fuel ih =>
    intro map base short seg rands res h hb hs
    simp only [makeShortNameLoop] at h
    split at h
    · split at h
      · split at h
        · cases h
        · exact ih map base _ (seg + 1) _ res h hb (goodShort_fallback _)
      · next hle =>
          have hlen3 : (toUpperStr (ConvertIntToColumnName seg)).data.length ≤ 3 := by
            rw [← string_length_eq]
            omega
          refine ih map base _ (seg + 1) rands res h hb
            (goodShort_append hb hlen3 (toUpperStr_chars fun c0 hc0 => ?_))
          rcases convertGo_chars (seg + 1) seg c0 hc0 with hd | hd <;> omega
    · next hmem =>
        cases h
        exact ⟨hmem, hs⟩

theorem makeShortName_good {st st2 : SpssWriter} {v : Var} {segment fuel : Nat}
    {short : String} (h : makeShortName st v segment fuel = some (short, st2))
    (hname : ∀ c ∈ v.name.data, c.toNat < 128) :
    short ∉ st.shortMap ∧ GoodShort short := by
  simp only [makeShortName] at h
  split at h
  · cases h
  · next sh rs heq =>
      simp only [Option.some.injEq, Prod.mk.injEq] at h
      obtain ⟨rfl, rfl⟩ := h
      have hb := goodBase_of_ascii hname
      exact makeShortNameLoop_good fuel st.shortMap _ _ segment st.rands (sh, rs)
        heq hb (goodShort_base0 hb)

theorem listModify_mem {α : Type} : ∀ (l : List α) (i : Nat) (f : α → α),
    ∀ x ∈ listModify l i f, x ∈ l ∨ ∃ y ∈ l, x = f y := by
  intro l
  induction l with
  | nil => intro i f x hx; cases hx
  | cons a l ih =>
    intro i f x hx
    cases i with
    | zero =>
      simp only [listModify] at hx
      rcases List.mem_cons.mp hx with rfl | hx
      · exact Or.inr ⟨a, List.mem_cons_self a l, rfl⟩
      · exact Or.inl (List.mem_cons_of_mem a hx)
    | succ i =>
      simp only [listModify] at hx
      rcases List.mem_cons.mp hx with rfl | hx
      · exact Or.inl (List.mem_cons_self _ _)
      · rcases ih i f x hx with hx2 | ⟨y, hy, hxy⟩
        · exact Or.inl (List.mem_cons_of_mem _ hx2)
        · exact Or.inr ⟨y, List.mem_cons_of_mem _ hy, hxy⟩

theorem shortInv_insert {st : SpssWriter} {short : String}
    (hinv : ShortInv st) (hnot : short ∉ st.shortMap) (hgood : GoodShort short) :
    (st.shortMap ++ [short]).Nodup ∧ ∀ s ∈ st.shortMap ++ [short], GoodShort s := by
  obtain ⟨hnd, hall⟩ := hinv
  constructor
  · rw [List.nodup_append]
    refine ⟨hnd, by simp, ?_⟩
    intro a ha hb
    have hab : a = short := by simpa using hb
    exact hnot (hab ▸ ha)
  · intro s hsmem
    rcases List.mem_append.mp hsmem with hsmem | hsmem
    · exact hall s hsmem
    · have : s = short := by simpa using hsmem
      exact this ▸ hgood

theorem varRecSegLoop_inv (fuel i : Nat) : ∀ (rem s : Nat) (st st2 : SpssWriter),
    varRecSegLoop fuel i st s rem = .ok st2 → ShortInv st → DictAscii st →
    ShortInv st2 ∧ DictAscii st2 := by
  intro rem
  induction rem with
  | zero =>
    intro s st st2 h hinv hd
    simp only [varRecSegLoop] at h
    cases h
    exact ⟨hinv, hd⟩
  | succ rem ih =>
    intro s st st2 h hinv hd
    simp only [varRecSegLoop] at h
    split at h
    · cases h; exact ⟨hinv, hd⟩
    · next v hget =>
        split at h
        · cases h
        · next short st2x hms =>
            have hv : v ∈ st.dict := List.get?_mem hget
            obtain ⟨hnot, hgood⟩ := makeShortName_good hms (hd v hv)
            obtain ⟨rs, rfl⟩ := makeShortName_state hms
            by_cases hs0 : s = 0
            · rw [if_pos hs0] at h
              obtain ⟨s2, hsw, hcont⟩ := andThen_eq_ok h
              obtain rfl := sinkWrite_ok_eq hsw
              refine ih (s + 1) _ st2 hcont
                ⟨(shortInv_insert hinv hnot hgood).1,
                 (shortInv_insert hinv hnot hgood).2⟩ ?_
              intro w hw c hc
              rcases listModify_mem st.dict i _ w hw with hw2 | ⟨y, hy, rfl⟩
              · exact hd w hw2 c hc
              · exact hd y hy c hc
            · rw [if_neg hs0] at h
              obtain ⟨s2, hsw, hcont⟩ := andThen_eq_ok h
              obtain rfl := sinkWrite_ok_eq hsw
              refine ih (s + 1) _ st2 hcont
                ⟨(shortInv_insert hinv hnot hgood).1,
                 (shortInv_insert hinv hnot hgood).2⟩ ?_
              intro w hw c hc
              exact hd w hw c hc

theorem varRecordsLoop_inv (fuel : Nat) : ∀ (rem i : Nat) (st st2 : SpssWriter),
    varRecordsLoop fuel st i rem = .ok st2 → ShortInv st → DictAscii st →
    ShortInv st2 ∧ DictAscii st2 := by
  intro rem
  induction rem with
  | zero =>
    intro i st st2 h hinv hd
    simp only [varRecordsLoop] at h
    cases h
    exact ⟨hinv, hd⟩
  | succ rem ih =>
    intro i st st2 h hinv hd
    simp only [varRecordsLoop] at h
    split at h
    · cases h; exact ⟨hinv, hd⟩
    · next v hget =>
        obtain ⟨s1, hseg, hcont⟩ := andThen_eq_ok h
        obtain ⟨hinv1, hd1⟩ := varRecSegLoop_inv fuel i v.segments 0 st s1 hseg hinv hd
        exact ih (i + 1) s1 st2 hcont hinv1 hd1

theorem variableRecords_inv {fuel : Nat} {st st2 : SpssWriter}
    (h : variableRecords fuel st = .ok st2) (hinv : ShortInv st) (hd : DictAscii st) :
    ShortInv st2 ∧ DictAscii st2 := by
  unfold variableRecords at h
  exact varRecordsLoop_inv fuel st.dict.length 0 st st2 h hinv hd

theorem sinkWrite_ok_shortMap {st st2 : SpssWriter} {bs : List Nat}
    (h : sinkWrite st bs = .ok st2) : st2.shortMap = st.shortMap := by
  rw [sinkWrite_ok_eq h]

theorem valueLabelRecords_ok_shortMap {st st2 : SpssWriter}
    (h : valueLabelRecords st = .ok st2) : st2.shortMap = st.shortMap := by
  unfold valueLabelRecords at h
  split at h
  · cases h
  · exact sinkWrite_ok_shortMap h

/-- C8: after a successful `Start` on a writer whose dictionary names are
ASCII (as `cleanVarName` guarantees) and whose short-name map is empty, the
short-name map holds pairwise-distinct keys, and every allocated short name
is at most 8 (ASCII) bytes long with no lowercase letters. -/
theorem c8_short_name_uniqueness (st : SpssWriter) (lbl ds ts : String) (fuel : Nat)
    (st1 : SpssWriter)
    (hnames : ∀ v ∈ st.dict, ∀ c ∈ v.name.data, c.toNat < 128)
    (hmap : st.shortMap = [])
    (h : Start st lbl ds ts fuel = .ok st1) :
    st1.shortMap.Nodup ∧ ∀ s ∈ st1.shortMap, GoodShort s := by
  unfold Start at h
  obtain ⟨s1, h1, h⟩ := andThen_eq_ok h
  obtain ⟨s2, h2, h⟩ := andThen_eq_ok h
  obtain ⟨s3, h3, h⟩ := andThen_eq_ok h
  obtain ⟨s4, h4, h⟩ := andThen_eq_ok h
  obtain ⟨s5, h5, h⟩ := andThen_eq_ok h
  obtain ⟨s6, h6, h⟩ := andThen_eq_ok h
  obtain ⟨s7, h7, h⟩ := andThen_eq_ok h
  obtain ⟨s8, h8, h⟩ := andThen_eq_ok h
  obtain ⟨s9, h9, h⟩ := andThen_eq_ok h
  obtain ⟨s10, h10, h11⟩ := andThen_eq_ok h
  obtain rfl := sinkWrite_ok_eq h1
  have hinv1 : ShortInv { st with
      file := st.file ++ headerRecordBytes (caseSizeW st) lbl ds ts } := by
    constructor
    · rw [hmap]; exact List.nodup_nil
    · rw [hmap]; intro s hs; cases hs
  have hd1 : DictAscii { st with
      file := st.file ++ headerRecordBytes (caseSizeW st) lbl ds ts } := hnames
  obtain ⟨hinv2, _⟩ := variableRecords_inv h2 hinv1 hd1
  have hchain : st1.shortMap = s2.shortMap := by
    rw [sinkWrite_ok_shortMap h11, sinkWrite_ok_shortMap h10,
      sinkWrite_ok_shortMap h9, sinkWrite_ok_shortMap h8, sinkWrite_ok_shortMap h7,
      sinkWrite_ok_shortMap h6, sinkWrite_ok_shortMap h5, sinkWrite_ok_shortMap h4,
      valueLabelRecords_ok_shortMap h3]
  rw [hchain]
  exact ⟨hinv2.1, hinv2.2⟩

theorem c8_witness :
    c8run = .ok c8st1 ∧
    (c8st1.shortMap.Nodup ∧ ∀ s ∈ c8st1.shortMap, GoodShort s) :=
  ⟨rfl,
   c8_short_name_uniqueness c8base "lbl" "05 Feb 26" "12:00:00" 10 c8st1
     (by decide) (by decide) rfl⟩

/-! ## C9: value labels go through 32-bit float parsing

The value-label records sit between the variable records and the
machine-info records. `atof` is `strconv.ParseFloat(s, 32)` followed by
`log.Fatalln` on error, modelled as `parseFloat32` returning `none`. -/

theorem sinkWrite_ok_dict {st st2 : SpssWriter} {bs : List Nat}
    (h : sinkWrite st bs = .ok st2) : st2.dict = st.dict := by
  rw [sinkWrite_ok_eq h]

theorem valueLabelEntries_cons (v : Var) (a : GoLabel) (as : List GoLabel) :
    valueLabelEntries v (a :: as) =
      match valueLabelEntry v a, valueLabelEntries v as with
      | some b, some bs => some (b ++ bs)
      | _, _ => none := rfl

theorem valueLabelsAll_cons (w : Var) (ws : List Var) :
    valueLabelsAll (w :: ws) =
      match (if w.labels ≠ [] ∧ w.typeSize ≤ 8 then valueLabelRecBytes w
             else some []),
          valueLabelsAll ws with
      | some b, some bs => some (b ++ bs)
      | _, _ => none := rfl

/-- A successful `Start` pins down the value-label payload: the header and
variable records succeeded, `valueLabelsAll` produced bytes `bs` on the
post-`variableRecords` dictionary (which is also the final dictionary), and
`bs` sits in the output file between the earlier records and the later
ones. -/
theorem start_ok_valueLabels {st st1 : SpssWriter} {lbl ds ts : String} {fuel : Nat}
    (h : Start st lbl ds ts fuel = .ok st1) :
    ∃ s1 s2 bs,
      sinkWrite st (headerRecordBytes (caseSizeW st) lbl ds ts) = .ok s1 ∧
      variableRecords fuel s1 = .ok s2 ∧
      valueLabelsAll s2.dict = some bs ∧
      st1.dict = s2.dict ∧
      ∃ post, st1.file = s2.file ++ bs ++ post := by
  unfold Start at h
  obtain ⟨s1, h1, h⟩ := andThen_eq_ok h
  obtain ⟨s2, h2, h⟩ := andThen_eq_ok h
  obtain ⟨s3, h3, h⟩ := andThen_eq_ok h
  have hvl : ∃ bs, valueLabelsAll s2.dict = some bs ∧
      s3 = { s2 with file := s2.file ++ bs } := by
    unfold valueLabelRecords at h3
    split at h3
    · cases h3
    · next bs hbs => exact ⟨bs, hbs, sinkWrite_ok_eq h3⟩
  obtain ⟨bs, hbs, rfl⟩ := hvl
  refine ⟨s1, s2, bs, h1, h2, hbs, ?_, ?_⟩
  · obtain ⟨s4, h4, h⟩ := andThen_eq_ok h
    obtain ⟨s5, h5, h⟩ := andThen_eq_ok h
    obtain ⟨s6, h6, h⟩ := andThen_eq_ok h
    obtain ⟨s7, h7, h⟩ := andThen_eq_ok h
    obtain ⟨s8, h8, h⟩ := andThen_eq_ok h
    obtain ⟨s9, h9, h⟩ := andThen_eq_ok h
    obtain ⟨s10, h10, h11⟩ := andThen_eq_ok h
    rw [sinkWrite_ok_dict h11, sinkWrite_ok_dict h10, sinkWrite_ok_dict h9,
      sinkWrite_ok_dict h8, sinkWrite_ok_dict h7, sinkWrite_ok_dict h6,
      sinkWrite_ok_dict h5, sinkWrite_ok_dict h4]
  · have hrest : PresExt fun s3 =>
        (sinkWrite s3 machineIntegerInfoBytes).andThen fun s4 =>
        (sinkWrite s4 machineFloatingPointInfoBytes).andThen fun s5 =>
        (sinkWrite s5 (variableDisplayParameterBytes s5.dict)).andThen fun s6 =>
        (sinkWrite s6 (longVarNameBytes s6.dict)).andThen fun s7 =>
        (sinkWrite s7 (veryLongStringBytes s7.dict)).andThen fun s8 =>
        (sinkWrite s8 encodingRecordBytes).andThen fun s9 =>
        (sinkWrite s9 (longStringValueLabelsBytes s9.dict)).andThen fun s10 =>
        sinkWrite s10 terminationRecordBytes :=
      presExt_andThenF (presExt_sinkWriteF fun _ => machineIntegerInfoBytes)
        (presExt_andThenF (presExt_sinkWriteF fun _ => machineFloatingPointInfoBytes)
          (presExt_andThenF (presExt_sinkWriteF fun s => variableDisplayParameterBytes s.dict)
            (presExt_andThenF (presExt_sinkWriteF fun s => longVarNameBytes s.dict)
              (presExt_andThenF (presExt_sinkWriteF fun s => veryLongStringBytes s.dict)
                (presExt_andThenF (presExt_sinkWriteF fun _ => encodingRecordBytes)
                  (presExt_andThenF (presExt_sinkWriteF fun s => longStringValueLabelsBytes s.dict)
                    (presExt_sinkWriteF fun _ => terminationRecordBytes)))))))
    obtain ⟨⟨t, ht⟩, _⟩ := hrest _ st1 (Or.inl h)
    exact ⟨t, by rw [ht]⟩

theorem valueLabelEntries_mem (v : Var) : ∀ (ls : List GoLabel) (es : List Nat),
    valueLabelEntries v ls = some es → ∀ l ∈ ls, ∃ e, valueLabelEntry v l = some e := by
  intro ls
  induction ls with
  | nil => intro es _ l hl; cases hl
  | cons a as ih =>
    intro es h l hl
    rw [valueLabelEntries_cons] at h
    cases hb : valueLabelEntry v a with
    | none => rw [hb] at h; cases h
    | some b =>
      cases hbs : valueLabelEntries v as with
      | none => rw [hb, hbs] at h; cases h
      | some bs =>
        rcases List.mem_cons.mp hl with rfl | hl2
        · exact ⟨b, hb⟩
        · exact ih bs hbs l hl2

theorem valueLabelRecBytes_entries {v : Var} {r : List Nat}
    (h : valueLabelRecBytes v = some r) :
    ∃ es, valueLabelEntries v v.labels = some es ∧
      r = i32le 3 ++ i32le (v.labels.length : Int) ++ es ++
        i32le 4 ++ i32le 1 ++ i32le v.index := by
  unfold valueLabelRecBytes at h
  cases hes : valueLabelEntries v v.labels with
  | none => rw [hes] at h; cases h
  | some es =>
    rw [hes] at h
    simp only [Option.map_some', Option.some.injEq] at h
    exact ⟨es, rfl, h.symm⟩

/-- If the whole value-label payload exists, every variable the writer emits
a record for has working record bytes. -/
theorem valueLabelsAll_recBytes : ∀ (dict : List Var) (bs : List Nat),
    valueLabelsAll dict = some bs → ∀ v ∈ dict, v.labels ≠ [] → v.typeSize ≤ 8 →
    ∃ r, valueLabelRecBytes v = some r := by
  intro dict
  induction dict with
  | nil => intro bs _ v hv; cases hv
  | cons w ws ih =>
    intro bs h v hv hlab hts
    rw [valueLabelsAll_cons] at h
    rcases List.mem_cons.mp hv with rfl | hv2
    · cases hr : valueLabelRecBytes v with
      | none =>
        rw [if_pos ⟨hlab, hts⟩, hr] at h
        cases h
      | some r => exact ⟨r, rfl⟩
    · cases hrest : valueLabelsAll ws with
      | some bs2 => exact ih bs2 hrest v hv2 hlab hts
      | none =>
        exfalso
        cases hhere : (if w.labels ≠ [] ∧ w.typeSize ≤ 8 then valueLabelRecBytes w
            else some []) with
        | none => rw [hhere] at h; cases h
        | some b => rw [hhere, hrest] at h; cases h

/-- For a numeric variable (type size 0), an entry exists exactly for a
parseable value, and its first 8 bytes are the `float64` encoding of the
`float32`-rounded parse. -/
theorem valueLabelEntry_numeric {v : Var} {l : GoLabel} {e : List Nat}
    (ht : v.typeSize = 0) (h : valueLabelEntry v l = some e) :
    ∃ q, parseFloat32 l.value = some q ∧ e = f64le q ++ labelDescSpecBytes l := by
  unfold valueLabelEntry valueLabelValueBytes at h
  rw [if_pos ht] at h
  cases hp : parseFloat32 l.value with
  | none => rw [hp] at h; cases h
  | some q =>
    rw [hp] at h
    simp only [Option.map_some', Option.some.injEq] at h
    exact ⟨q, rfl, h.symm⟩

theorem valueLabelEntry_noparse {v : Var} {l : GoLabel} (ht : v.typeSize = 0)
    (hp : parseFloat32 l.value = none) : valueLabelEntry v l = none := by
  unfold valueLabelEntry valueLabelValueBytes
  rw [if_pos ht, hp]
  rfl

theorem valueLabelEntries_noparse {v : Var} {l : GoLabel} (ht : v.typeSize = 0)
    (hp : parseFloat32 l.value = none) :
    ∀ ls, l ∈ ls → valueLabelEntries v ls = none := by
  intro ls
  induction ls with
  | nil => intro hmem; cases hmem
  | cons a as ih =>
    intro hmem
    rw [valueLabelEntries_cons]
    rcases List.mem_cons.mp hmem with rfl | h2
    · rw [valueLabelEntry_noparse ht hp]
    · rw [ih h2]
      cases valueLabelEntry v a <;> rfl

theorem valueLabelRecBytes_noparse {v : Var} {l : GoLabel} (ht : v.typeSize = 0)
    (hl : l ∈ v.labels) (hp : parseFloat32 l.value = none) :
    valueLabelRecBytes v = none := by
  unfold valueLabelRecBytes
  rw [valueLabelEntries_noparse ht hp v.labels hl]
  rfl

theorem valueLabelsAll_noparse {v : Var} {l : GoLabel} (ht : v.typeSize = 0)
    (hl : l ∈ v.labels) (hp : parseFloat32 l.value = none) :
    ∀ dict, v ∈ dict → valueLabelsAll dict = none := by
  intro dict
  induction dict with
  | nil => intro hmem; cases hmem
  | cons w ws ih =>
    intro hmem
    rw [valueLabelsAll_cons]
    rcases List.mem_cons.mp hmem with rfl | h2
    · rw [if_pos ⟨List.ne_nil_of_mem hl, by omega⟩,
        valueLabelRecBytes_noparse ht hl hp]
    · rw [ih h2]
      cases (if w.labels ≠ [] ∧ w.typeSize ≤ 8 then valueLabelRecBytes w
          else some []) <;> rfl

theorem listModify_map {α β : Type} (g : α → β) (f : α → α)
    (hgf : ∀ y, g (f y) = g y) : ∀ (l : List α) (i : Nat),
    (listModify l i f).map g = l.map g := by
  intro l
  induction l with
  | nil => intro i; rfl
  | cons a as ih =>
    intro i
    cases i with
    | zero => simp only [listModify, List.map_cons, hgf]
    | succ j => simp only [listModify, List.map_cons, ih j]

/-- `varRecSegLoop` only assigns short names: any projection of the
dictionary entries that ignores `shortName` is preserved. -/
theorem varRecSegLoop_core {β : Type} (g : Var → β)
    (hg : ∀ (w : Var) (sn : String), g { w with shortName := sn } = g w)
    (fuel i : Nat) : ∀ (rem s : Nat) (st st2 : SpssWriter),
    varRecSegLoop fuel i st s rem = .ok st2 →
    st2.dict.map g = st.dict.map g := by
  intro rem
  induction rem with
  | zero =>
    intro s st st2 h
    simp only [varRecSegLoop] at h
    cases h
    rfl
  | succ rem ih =>
    intro s st st2 h
    simp only [varRecSegLoop] at h
    split at h
    · cases h; rfl
    · next v hget =>
        split at h
        · cases h
        · next short st2x hms =>
            obtain ⟨rs, rfl⟩ := makeShortName_state hms
            by_cases hs0 : s = 0
            · rw [if_pos hs0] at h
              obtain ⟨s2, hsw, hcont⟩ := andThen_eq_ok h
              obtain rfl := sinkWrite_ok_eq hsw
              have hrec := ih (s + 1) _ st2 hcont
              rw [hrec]
              exact listModify_map g _ (fun y => hg y short) st.dict i
            · rw [if_neg hs0] at h
              obtain ⟨s2, hsw, hcont⟩ := andThen_eq_ok h
              obtain rfl := sinkWrite_ok_eq hsw
              have hrec := ih (s + 1) _ st2 hcont
              rw [hrec]

theorem varRecordsLoop_core {β : Type} (g : Var → β)
    (hg : ∀ (w : Var) (sn : String), g { w with shortName := sn } = g w)
    (fuel : Nat) : ∀ (rem i : Nat) (st st2 : SpssWriter),
    varRecordsLoop fuel st i rem = .ok st2 →
    st2.dict.map g = st.dict.map g := by
  intro rem
  induction rem with
  | zero =>
    intro i st st2 h
    simp only [varRecordsLoop] at h
    cases h
    rfl
  | succ rem ih =>
    intro i st st2 h
    simp only [varRecordsLoop] at h
    split at h
    · cases h; rfl
    · next v hget =>
        obtain ⟨s1, hseg, hcont⟩ := andThen_eq_ok h
        rw [ih (i + 1) s1 st2 hcont]
        exact varRecSegLoop_core g hg fuel i v.segments 0 st s1 hseg

theorem variableRecords_core {β : Type} (g : Var → β)
    (hg : ∀ (w : Var) (sn : String), g { w with shortName := sn } = g w)
    {fuel : Nat} {st st2 : SpssWriter} (h : variableRecords fuel st = .ok st2) :
    st2.dict.map g = st.dict.map g := by
  unfold variableRecords at h
  exact varRecordsLoop_core g hg fuel st.dict.length 0 st st2 h

/-- An unparseable numeric label in the input dictionary survives
`variableRecords` (which only assigns short names) and makes
`valueLabelsAll` fail on the post-`variableRecords` dictionary. -/
theorem bad_label_transfers {st s1 s2 : SpssWriter} {lbl ds ts : String} {fuel : Nat}
    {v : Var} {l : GoLabel}
    (hsw : sinkWrite st (headerRecordBytes (caseSizeW st) lbl ds ts) = .ok s1)
    (hvr : variableRecords fuel s1 = .ok s2)
    (hv : v ∈ st.dict) (ht : v.typeSize = 0) (hl : l ∈ v.labels)
    (hp : parseFloat32 l.value = none) :
    valueLabelsAll s2.dict = none := by
  have hcore : s2.dict.map (fun w => (w.typeSize, w.labels)) =
      st.dict.map (fun w => (w.typeSize, w.labels)) := by
    have hc := variableRecords_core (fun w => (w.typeSize, w.labels))
      (fun w sn => rfl) hvr
    rw [hc, sinkWrite_ok_dict hsw]
  have hmem : (v.typeSize, v.labels) ∈
      s2.dict.map (fun w => (w.typeSize, w.labels)) := by
    rw [hcore]
    exact List.mem_map_of_mem _ hv
  obtain ⟨v2, hv2, heq⟩ := List.mem_map.mp hmem
  simp only [Prod.mk.injEq] at heq
  exact valueLabelsAll_noparse (heq.1.trans ht) (by rw [heq.2]; exact hl) hp
    s2.dict hv2

/-- C9: for every writer state and every successful `Start`, the value-label
payload computed from the final dictionary is embedded in the output file,
and for every numeric variable (type size 0) in that dictionary every value
label parsed under `strconv.ParseFloat(value, 32)`, its entry carrying the
`float64` encoding of the `float32`-rounded value in its first 8 bytes, inside
the rec-type 3 record of that variable; for every writer state holding a
numeric variable with an unparseable label value, `Start` can never return
`.ok`, and whenever the header and variable records succeed (so execution
reaches `atof`), `Start` is exactly `.fatal` (`log.Fatalln` ends the process,
no error is returned to the caller); and concretely, the label value `0.1`,
whose exact value is 1/10, parses to the `float32`-rounded 13421773/2²⁷,
which differs both from 1/10 and from the `float64` rounding of 1/10. -/
theorem c9_value_label_float32_rounding :
    (∀ (st st1 : SpssWriter) (lbl ds ts : String) (fuel : Nat),
      Start st lbl ds ts fuel = .ok st1 →
      ∃ bs pre post,
        valueLabelsAll st1.dict = some bs ∧
        st1.file = pre ++ bs ++ post ∧
        ∀ v ∈ st1.dict, v.typeSize = 0 →
          (∀ l ∈ v.labels, ∃ q, parseFloat32 l.value = some q ∧
            valueLabelEntry v l = some (f64le q ++ labelDescSpecBytes l)) ∧
          (v.labels ≠ [] → ∃ es, valueLabelEntries v v.labels = some es ∧
            valueLabelRecBytes v = some (i32le 3 ++ i32le (v.labels.length : Int) ++
              es ++ i32le 4 ++ i32le 1 ++ i32le v.index))) ∧
    (∀ (st : SpssWriter) (lbl ds ts : String) (fuel : Nat) (v : Var) (l : GoLabel),
      v ∈ st.dict → v.typeSize = 0 → l ∈ v.labels → parseFloat32 l.value = none →
      (∀ st1, Start st lbl ds ts fuel ≠ .ok st1) ∧
      (∀ s1 s2, sinkWrite st (headerRecordBytes (caseSizeW st) lbl ds ts) = .ok s1 →
        variableRecords fuel s1 = .ok s2 →
        Start st lbl ds ts fuel = .fatal)) ∧
    (parseFloat32 "0.1" = some ⟨13421773, 134217728⟩ ∧
      qeqb ⟨13421773, 134217728⟩ ⟨1, 10⟩ = false ∧
      qeqb (roundF64 ⟨1, 10⟩) ⟨13421773, 134217728⟩ = false) := by
  refine ⟨?_, ?_, by decide, by decide, by decide⟩
  · intro st st1 lbl ds ts fuel h
    obtain ⟨s1, s2, bs, h1, h2, hbs, hdict, post, hfile⟩ := start_ok_valueLabels h
    refine ⟨bs, s2.file, post, by rw [hdict]; exact hbs, hfile, ?_⟩
    intro v hv ht
    rw [hdict] at hv
    constructor
    · intro l hl
      obtain ⟨r, hr⟩ := valueLabelsAll_recBytes s2.dict bs hbs v hv
        (List.ne_nil_of_mem hl) (by omega)
      obtain ⟨es, hes, hrEq⟩ := valueLabelRecBytes_entries hr
      obtain ⟨e, he⟩ := valueLabelEntries_mem v v.labels es hes l hl
      obtain ⟨q, hq, rfl⟩ := valueLabelEntry_numeric ht he
      exact ⟨q, hq, he⟩
    · intro hne
      obtain ⟨r, hr⟩ := valueLabelsAll_recBytes s2.dict bs hbs v hv hne (by omega)
      obtain ⟨es, hes, hrEq⟩ := valueLabelRecBytes_entries hr
      exact ⟨es, hes, by rw [hr, hrEq]⟩
  · intro st lbl ds ts fuel v l hv ht hl hp
    constructor
    · intro st1 hok
      obtain ⟨s1, s2, bs, h1, h2, hbs, -, -⟩ := start_ok_valueLabels hok
      rw [bad_label_transfers h1 h2 hv ht hl hp] at hbs
      cases hbs
    · intro s1 s2 hsw hvr
      have hnone := bad_label_transfers hsw hvr hv ht hl hp
      have hfatal : valueLabelRecords s2 = .fatal := by
        unfold valueLabelRecords
        rw [hnone]
      unfold Start
      simp only [hsw, andThen_ok]
      simp only [hvr, andThen_ok]
      simp only [hfatal, andThen_fatal]

/-- Witness: C9's universal statement applied to the concrete runs — the
successful run on the variable labelled `0.1` and the fatal run on the
variable labelled `abc`. -/
theorem c9_witness :
    (∃ bs pre post,
        valueLabelsAll c9goodSt1.dict = some bs ∧
        c9goodSt1.file = pre ++ bs ++ post ∧
        ∀ v ∈ c9goodSt1.dict, v.typeSize = 0 →
          (∀ l ∈ v.labels, ∃ q, parseFloat32 l.value = some q ∧
            valueLabelEntry v l = some (f64le q ++ labelDescSpecBytes l)) ∧
          (v.labels ≠ [] → ∃ es, valueLabelEntries v v.labels = some es ∧
            valueLabelRecBytes v = some (i32le 3 ++ i32le (v.labels.length : Int) ++
              es ++ i32le 4 ++ i32le 1 ++ i32le v.index))) ∧
    Start c9stBad "lbl" "05 Feb 26" "12:00:00" 10 = .fatal :=
  ⟨c9_value_label_float32_rounding.1 c9stGood c9goodSt1
      "lbl" "05 Feb 26" "12:00:00" 10 rfl,
   (c9_value_label_float32_rounding.2.1 c9stBad "lbl" "05 Feb 26" "12:00:00" 10
      c9badVar ⟨"abc", "x"⟩ (by decide) (by decide) (by decide) (by decide)).2
      c9badS1 c9badS2 rfl rfl⟩

end Sav
